import Mathlib

/-!
Verification of the tripbot chat service (`src/app.py`) against its
natural-language specification.  The Python source is shallowly embedded:
pydantic models become structures, the JSON handling of `json.loads` is
modelled by an executable tokenizer/parser over `List Char`, Python string
operations (`strip`, `splitlines`, `startswith`, `"\n".join`) are modelled
by executable functions, and the `/chat` endpoint becomes a pure function
from the session store, the request and the two model-collaborator oracles
to an outcome (a JSON response, or an unhandled-exception exit).
-/

set_option maxHeartbeats 1000000
set_option maxRecDepth 10000

namespace TripBot

/-! ### Pydantic data model (src/app.py lines 19-47).
Python `float` prices are modelled as integers; all inputs used in the
development have integral prices, and no claim depends on fractional values. -/

/-- Flight(BaseModel): id, departure, arrival, optional dates, price. -/
structure Flight where
  id : String
  departure : String
  arrival : String
  departure_date : Option String
  arrival_date : Option String
  price : Int
deriving DecidableEq

/-- Hotel(BaseModel): id, name, price_per_night. -/
structure Hotel where
  id : String
  name : String
  price_per_night : Int
deriving DecidableEq

/-- Selection(BaseModel): flight_id, hotel_id. -/
structure Selection where
  flight_id : String
  hotel_id : String
deriving DecidableEq

/-- Itinerary(BaseModel): flight, hotel, total_cost, points_used, notes. -/
structure Itinerary where
  flight : Flight
  hotel : Hotel
  total_cost : Int
  points_used : Int
  notes : String
deriving DecidableEq

/-! ### Character classes and Python string primitives -/

/-- Whitespace skipped by Python's `json` scanner (space, tab, newline, CR). -/
def isJsonWs (c : Char) : Bool :=
  c = ' ' || c = '\t' || c = '\n' || c = '\r'

/-- Whitespace removed by Python `str.strip()`: the characters for which
`str.isspace()` holds — ASCII whitespace, the separator controls
\x1c-\x1f, NEL \x85, NO-BREAK SPACE \xa0, OGHAM SPACE MARK \u1680, the
typographic spaces \u2000-\u200a, LINE SEPARATOR \u2028, PARAGRAPH
SEPARATOR \u2029, NARROW NO-BREAK SPACE \u202f, MEDIUM MATHEMATICAL SPACE
\u205f and IDEOGRAPHIC SPACE \u3000. -/
def isPyWs (c : Char) : Bool :=
  c = ' ' || c = '\t' || c = '\n' || c = '\r' || c = '\x0b' || c = '\x0c' ||
  c = '\x1c' || c = '\x1d' || c = '\x1e' || c = '\x1f' || c = '\x85' ||
  c = '\xa0' || c = '\u1680' ||
  (decide (0x2000 ≤ c.toNat) && decide (c.toNat ≤ 0x200a)) ||
  c = '\u2028' || c = '\u2029' || c = '\u202f' || c = '\u205f' || c = '\u3000'

/-- Line-boundary characters recognised by Python `str.splitlines()`. -/
def isLineBreak (c : Char) : Bool :=
  c = '\n' || c = '\r' || c = '\x0b' || c = '\x0c' || c = '\x1c' || c = '\x1d' ||
  c = '\x1e' || c = '\x85' || c = '\u2028' || c = '\u2029'

/-- Python `str.strip()` on a character list. -/
def stripChars (cs : List Char) : List Char :=
  ((cs.dropWhile isPyWs).reverse.dropWhile isPyWs).reverse

/-- Prepend a character to the first block of a split, used by line splitters. -/
def consHead (c : Char) : List (List Char) → List (List Char)
  | [] => [[c]]
  | l :: ls => (c :: l) :: ls

/-- Split on `'\n'` only (every segment kept, like `str.split("\n")`). -/
def nlSplit : List Char → List (List Char)
  | [] => [[]]
  | c :: rest => if c = '\n' then [] :: nlSplit rest else consHead c (nlSplit rest)

/-- Split at every Python line boundary, treating `"\r\n"` as one boundary;
keeps a final empty segment (removed afterwards by `pySplitlines`). -/
def linesRaw : List Char → List (List Char)
  | [] => [[]]
  | c :: rest =>
      if c = '\r' then
        match rest with
        | d :: r2 => if d = '\n' then [] :: linesRaw r2 else [] :: linesRaw (d :: r2)
        | [] => [] :: linesRaw ([] : List Char)
      else if isLineBreak c then [] :: linesRaw rest
      else consHead c (linesRaw rest)

/-- Python `str.splitlines()`: split at the line boundaries and drop a
trailing empty segment (so that `"".splitlines() = []`, `"a\n".splitlines() = ["a"]`). -/
def pySplitlines (cs : List Char) : List (List Char) :=
  let ls := linesRaw cs
  if ls.getLast? = some [] then ls.dropLast else ls

/-- Python `"\n".join(...)` on character lists. -/
def joinNl : List (List Char) → List Char
  | [] => []
  | [l] => l
  | l :: ls => l ++ '\n' :: joinNl ls

/-! ### JSON values and `json.loads` (the strict-parse strategy).
Python's `json.loads` is modelled by a tokenizer plus a recursive-descent
parser over the token list.  JSON numbers are modelled as integers
(sufficient for every input in this development). -/

/-- JSON values.  Objects are association lists in source order; a duplicate
key is resolved by `lookupLast` (Python dicts keep the last occurrence). -/
inductive Json where
  | null : Json
  | bool (b : Bool) : Json
  | num (n : Int) : Json
  | str (s : String) : Json
  | arr (xs : List Json) : Json
  | obj (kvs : List (String × Json)) : Json

/-- Lookup in a JSON object; the last binding of a key wins, as in a Python
dict built by `json.loads`. -/
def lookupLast (kvs : List (String × Json)) (k : String) : Option Json :=
  kvs.foldl (fun acc p => if p.1 = k then some p.2 else acc) none

/-- JSON tokens. -/
inductive Tok where
  | lbrace | rbrace | lbrack | rbrack | comma | colon
  | tTrue | tFalse | tNull
  | num (n : Int)
  | str (s : List Char)
deriving DecidableEq

/-- Hexadecimal digit test. -/
def isHex (c : Char) : Bool :=
  c.isDigit || ('a' ≤ c && c ≤ 'f') || ('A' ≤ c && c ≤ 'F')

/-- Value of a hexadecimal digit. -/
def hexVal (c : Char) : Nat :=
  if c.isDigit then c.toNat - '0'.toNat
  else if 'a' ≤ c && c ≤ 'f' then c.toNat - 'a'.toNat + 10
  else if 'A' ≤ c && c ≤ 'F' then c.toNat - 'A'.toNat + 10
  else 0

/-- Character denoted by a `\uXXXX` escape. -/
def hexChar (a b c d : Char) : Char :=
  Char.ofNat (hexVal a * 4096 + hexVal b * 256 + hexVal c * 16 + hexVal d)

/-- Single-character string escapes of JSON (`\u` is handled separately). -/
def decodeEsc (c : Char) : Option Char :=
  if c = '"' then some '"'
  else if c = '\\' then some '\\'
  else if c = '/' then some '/'
  else if c = 'b' then some '\x08'
  else if c = 'f' then some '\x0c'
  else if c = 'n' then some '\n'
  else if c = 'r' then some '\r'
  else if c = 't' then some '\t'
  else none

/-- Read the body of a JSON string after the opening quote: returns the decoded
content and the remaining input after the closing quote.  Raw control
characters (below 0x20) are rejected, as in Python's strict mode. -/
def readStringBody : List Char → Option (List Char × List Char)
  | [] => none
  | c :: rest =>
      if c = '"' then some ([], rest)
      else if c = '\\' then
        match rest with
        | [] => none
        | e :: r2 =>
            if e = 'u' then
              match r2 with
              | a :: b :: c2 :: d :: r3 =>
                  if isHex a && isHex b && isHex c2 && isHex d then
                    (readStringBody r3).map (fun p => (hexChar a b c2 d :: p.1, p.2))
                  else none
              | _ => none
            else
              match decodeEsc e with
              | some ch => (readStringBody r2).map (fun p => (ch :: p.1, p.2))
              | none => none
      else if c.toNat < 32 then none
      else (readStringBody rest).map (fun p => (c :: p.1, p.2))

/-- Leading decimal digits of the input and the remainder. -/
def takeDigits : List Char → (List Char × List Char)
  | [] => ([], [])
  | c :: rest =>
      if c.isDigit then
        let p := takeDigits rest
        (c :: p.1, p.2)
      else ([], c :: rest)

/-- Numeric value of a digit list. -/
def digitsToNat (ds : List Char) : Nat :=
  ds.foldl (fun acc c => acc * 10 + (c.toNat - '0'.toNat)) 0

/-- Read a JSON integer token (optional minus sign then digits). -/
def readNumTok : List Char → Option (Int × List Char)
  | [] => none
  | c :: rest =>
      if c = '-' then
        let p := takeDigits rest
        if p.1.isEmpty then none else some (-(digitsToNat p.1 : Int), p.2)
      else
        let p := takeDigits (c :: rest)
        if p.1.isEmpty then none else some ((digitsToNat p.1 : Int), p.2)

/-- Fuel-indexed JSON tokenizer; `fuel = length + 1` always suffices since
every step consumes at least one character. -/
def tokenizeF : Nat → List Char → Option (List Tok)
  | 0, _ => none
  | _ + 1, [] => some []
  | fuel + 1, c :: rest =>
      if isJsonWs c then tokenizeF fuel rest
      else if c = '{' then (tokenizeF fuel rest).map (Tok.lbrace :: ·)
      else if c = '}' then (tokenizeF fuel rest).map (Tok.rbrace :: ·)
      else if c = '[' then (tokenizeF fuel rest).map (Tok.lbrack :: ·)
      else if c = ']' then (tokenizeF fuel rest).map (Tok.rbrack :: ·)
      else if c = ',' then (tokenizeF fuel rest).map (Tok.comma :: ·)
      else if c = ':' then (tokenizeF fuel rest).map (Tok.colon :: ·)
      else if c = '"' then
        match readStringBody rest with
        | some (s, r) => (tokenizeF fuel r).map (Tok.str s :: ·)
        | none => none
      else if c = '-' || c.isDigit then
        match readNumTok (c :: rest) with
        | some (n, r) => (tokenizeF fuel r).map (Tok.num n :: ·)
        | none => none
      else if c = 't' then
        match rest with
        | r1 :: r2 :: r3 :: r =>
            if r1 = 'r' && r2 = 'u' && r3 = 'e' then
              (tokenizeF fuel r).map (Tok.tTrue :: ·)
            else none
        | _ => none
      else if c = 'f' then
        match rest with
        | r1 :: r2 :: r3 :: r4 :: r =>
            if r1 = 'a' && r2 = 'l' && r3 = 's' && r4 = 'e' then
              (tokenizeF fuel r).map (Tok.tFalse :: ·)
            else none
        | _ => none
      else if c = 'n' then
        match rest with
        | r1 :: r2 :: r3 :: r =>
            if r1 = 'u' && r2 = 'l' && r3 = 'l' then
              (tokenizeF fuel r).map (Tok.tNull :: ·)
            else none
        | _ => none
      else none

/-- JSON tokenizer. -/
def tokenize (cs : List Char) : Option (List Tok) :=
  tokenizeF (cs.length + 1) cs

mutual

/-- Fuel-indexed recursive-descent parser for one JSON value. -/
def parseValF : Nat → List Tok → Option (Json × List Tok)
  | 0, _ => none
  | _ + 1, [] => none
  | fuel + 1, t :: ts =>
      match t with
      | Tok.str s => some (Json.str ⟨s⟩, ts)
      | Tok.num n => some (Json.num n, ts)
      | Tok.tTrue => some (Json.bool true, ts)
      | Tok.tFalse => some (Json.bool false, ts)
      | Tok.tNull => some (Json.null, ts)
      | Tok.lbrack =>
          match ts with
          | Tok.rbrack :: r => some (Json.arr [], r)
          | _ =>
              match parseValF fuel ts with
              | some (v, r) => parseArrF fuel [v] r
              | none => none
      | Tok.lbrace =>
          match ts with
          | Tok.rbrace :: r => some (Json.obj [], r)
          | Tok.str k :: Tok.colon :: r =>
              match parseValF fuel r with
              | some (v, r') => parseObjF fuel [(⟨k⟩, v)] r'
              | none => none
          | _ => none
      | _ => none

/-- Parse the tail of a JSON array after at least one element (accumulator in
reverse order). -/
def parseArrF : Nat → List Json → List Tok → Option (Json × List Tok)
  | 0, _, _ => none
  | _ + 1, acc, Tok.rbrack :: r => some (Json.arr acc.reverse, r)
  | fuel + 1, acc, Tok.comma :: ts =>
      match parseValF fuel ts with
      | some (v, r) => parseArrF fuel (v :: acc) r
      | none => none
  | _ + 1, _, _ => none

/-- Parse the tail of a JSON object after at least one member (accumulator in
reverse order). -/
def parseObjF : Nat → List (String × Json) → List Tok → Option (Json × List Tok)
  | 0, _, _ => none
  | _ + 1, acc, Tok.rbrace :: r => some (Json.obj acc.reverse, r)
  | fuel + 1, acc, Tok.comma :: Tok.str k :: Tok.colon :: ts =>
      match parseValF fuel ts with
      | some (v, r) => parseObjF fuel ((⟨k⟩, v) :: acc) r
      | none => none
  | _ + 1, _, _ => none

end

/-- Python `json.loads` on a character list: tokenize, parse one value, and
require that the whole input is consumed. -/
def jsonLoads (cs : List Char) : Option Json :=
  match tokenize cs with
  | none => none
  | some toks =>
      match parseValF (toks.length + 1) toks with
      | some (v, []) => some v
      | _ => none

/-! ### parse_selection (src/app.py lines 160-170) -/

/-- Python `ln.strip().startswith(pre)` test used by the fence filter. -/
def stripStarts (l : List Char) (pre : List Char) : Bool :=
  pre.isPrefixOf (stripChars l)

/-- The line filter of `parse_selection`: keep a line unless its stripped form
starts with a triple backtick or with `json`. -/
def fenceKeep (l : List Char) : Bool :=
  !(stripStarts l ['`', '`', '`']) && !(stripStarts l ['j', 's', 'o', 'n'])

/-- The cleaning stage of `parse_selection`: strip the text; if the result
starts with a code fence, drop every fence-like line and rejoin with `"\n"`. -/
def fenceClean (cs : List Char) : List Char :=
  let clean := stripChars cs
  if ['`', '`', '`'].isPrefixOf clean then
    joinNl ((pySplitlines clean).filter fenceKeep)
  else clean

/-- `Selection(**d)` for a parsed JSON value `d`: requires a JSON object whose
`flight_id` and `hotel_id` members are strings (pydantic v2 does not coerce
non-strings); extra members are ignored, a non-object raises and yields `none`. -/
def selectionOfJson : Json → Option Selection
  | Json.obj kvs =>
      match lookupLast kvs "flight_id", lookupLast kvs "hotel_id" with
      | some (Json.str f), some (Json.str h) => some ⟨f, h⟩
      | _, _ => none
  | _ => none

/-- `parse_selection` on a character list: clean the text, `json.loads` it and
validate the `Selection` schema; any failure gives `none`. -/
def parseSelectionChars (cs : List Char) : Option Selection :=
  (jsonLoads (fenceClean cs)).bind selectionOfJson

/-- `parse_selection(text)` from src/app.py: returns `Some` selection or `None`. -/
def parse_selection (text : String) : Option Selection :=
  parseSelectionChars text.data

/-! ### `json.dumps` (used only to build the prompt strings handed to the
model-collaborator oracles).  Non-ASCII escaping is not modelled; no claim
depends on the rendered prompt text. -/

/-- Escape of one character inside a dumped JSON string. -/
def escChar (c : Char) : List Char :=
  if c = '"' then ['\\', '"']
  else if c = '\\' then ['\\', '\\']
  else if c = '\n' then ['\\', 'n']
  else if c = '\t' then ['\\', 't']
  else if c = '\r' then ['\\', 'r']
  else [c]

/-- Dump of a JSON string literal. -/
def dumpsStr (s : String) : String :=
  "\"" ++ String.mk (s.data.foldr (fun c acc => escChar c ++ acc) []) ++ "\""

mutual

/-- `json.dumps` with the default separators `", "` and `": "`. -/
def dumps : Json → String
  | Json.null => "null"
  | Json.bool true => "true"
  | Json.bool false => "false"
  | Json.num n => toString n
  | Json.str s => dumpsStr s
  | Json.arr xs => "[" ++ dumpsList xs ++ "]"
  | Json.obj kvs => "\x7b" ++ dumpsObj kvs ++ "\x7d"

/-- Dump of array elements. -/
def dumpsList : List Json → String
  | [] => ""
  | [x] => dumps x
  | x :: xs => dumps x ++ ", " ++ dumpsList xs

/-- Dump of object members. -/
def dumpsObj : List (String × Json) → String
  | [] => ""
  | [(k, v)] => dumpsStr k ++ ": " ++ dumps v
  | (k, v) :: kvs => dumpsStr k ++ ": " ++ dumps v ++ ", " ++ dumpsObj kvs

end

/-! ### Catalog normalization: `Flight(**f)` / `Hotel(**h)` (src/app.py 96-98).
Pydantic v2 semantics: required `str` fields accept only JSON strings,
`Optional[str]` fields accept strings, `null` or absence (defaulting to
`None`), numeric fields accept JSON numbers of either sign, and extra
members are ignored.  A failed validation raises, modelled as `none`. -/

/-- A `str`-typed pydantic field. -/
def asStr : Json → Option String
  | Json.str s => some s
  | _ => none

/-- Pydantic v2 lax coercion also accepts a numeric string for a numeric
field; in the integer idealization of prices this is an optional sign
followed by digits. -/
def parseNumStr (cs : List Char) : Option Int :=
  match cs with
  | [] => none
  | c :: ds =>
      if c = '-' then
        if !ds.isEmpty && ds.all Char.isDigit then
          some (-(digitsToNat ds : Int))
        else none
      else if c = '+' then
        if !ds.isEmpty && ds.all Char.isDigit then some (digitsToNat ds)
        else none
      else if (c :: ds).all Char.isDigit then some (digitsToNat (c :: ds))
      else none

/-- A numeric pydantic field (`float` modelled as `Int`): a JSON number, or
— pydantic v2 lax mode — a numeric string; note that no sign constraint is
applied, as none is declared in the source models. -/
def asNum : Json → Option Int
  | Json.num n => some n
  | Json.str s => parseNumStr s.data
  | _ => none

/-- An `Optional[str] = None` pydantic field. -/
def optStrField (kvs : List (String × Json)) (k : String) : Option (Option String) :=
  match lookupLast kvs k with
  | none => some none
  | some Json.null => some none
  | some (Json.str s) => some (some s)
  | some _ => none

/-- `Flight(**f)` on a raw JSON payload. -/
def flightOfJson : Json → Option Flight
  | Json.obj kvs => do
      let i ← (lookupLast kvs "id").bind asStr
      let dep ← (lookupLast kvs "departure").bind asStr
      let arrv ← (lookupLast kvs "arrival").bind asStr
      let dd ← optStrField kvs "departure_date"
      let ad ← optStrField kvs "arrival_date"
      let pr ← (lookupLast kvs "price").bind asNum
      some ⟨i, dep, arrv, dd, ad, pr⟩
  | _ => none

/-- `Hotel(**h)` on a raw JSON payload. -/
def hotelOfJson : Json → Option Hotel
  | Json.obj kvs => do
      let i ← (lookupLast kvs "id").bind asStr
      let nm ← (lookupLast kvs "name").bind asStr
      let pr ← (lookupLast kvs "price_per_night").bind asNum
      some ⟨i, nm, pr⟩
  | _ => none

/-- `[Flight(**f) for f in flights_raw]`: the whole batch fails if any entry
fails (the comprehension raises at the first invalid entry). -/
def normalizeFlights : List Json → Option (List Flight)
  | [] => some []
  | r :: rs => do
      let f ← flightOfJson r
      let fs ← normalizeFlights rs
      some (f :: fs)

/-- `[Hotel(**h) for h in hotels_raw]`. -/
def normalizeHotels : List Json → Option (List Hotel)
  | [] => some []
  | r :: rs => do
      let h ← hotelOfJson r
      let hs ← normalizeHotels rs
      some (h :: hs)

/-! ### Session store (`sessions: Dict[str, Dict[str, Any]]`, src/app.py 66).
Only the `"history"` component of a session is dynamic; the two agent
configurations are fixed constants, so a session is modelled by its history. -/

/-- The global session map, keyed by user id. -/
abbrev Sessions : Type := List (String × List String)

/-- Dictionary lookup. -/
def lookupS : Sessions → String → Option (List String)
  | [], _ => none
  | (k', v') :: rest, k => if k' = k then some v' else lookupS rest k

/-- Dictionary update-or-insert (`sessions[uid] = ...`). -/
def insertS : Sessions → String → List String → Sessions
  | [], k, v => [(k, v)]
  | (k', v') :: rest, k, v =>
      if k' = k then (k, v) :: rest else (k', v') :: insertS rest k v

/-- `if uid not in sessions: sessions[uid] = {..., "history": []}` (src/app.py 101). -/
def sessionEnsure (st : Sessions) (uid : String) : Sessions :=
  if (lookupS st uid).isNone then insertS st uid [] else st

/-! ### The `/chat` endpoint (src/app.py 68-202).
The two `Runner.run` calls are opaque model-collaborator oracles mapping the
prompt string to a reply; a reply carries the raw text (`str(final_output)`)
and the typed value recovered by `final_output_as` when that call succeeds. -/

/-- Inbound request body; absent keys are `none` (the handler applies the
`data.get` defaults). -/
structure ChatRequest where
  user_id : Option String
  message : Option String
  flights : Option (List Json)
  hotels : Option (List Json)
  user_points : Option Int

/-- One selector-stage model reply. -/
structure SelReply where
  raw : String
  structured : Option Selection

/-- One formatter-stage model reply. -/
structure FmtReply where
  raw : String
  structured : Option Itinerary
deriving DecidableEq

/-- Outbound JSON response; `itinerary = none` models the literal `{}`. -/
structure ChatResponse where
  message : String
  itinerary : Option Itinerary
deriving DecidableEq

/-- Result of one request: a JSON response together with the updated session
store, or an unhandled exception (an HTTP 500, not a crafted error payload). -/
inductive ChatOutcome where
  | resp (r : ChatResponse) (st : Sessions)
  | serverError (st : Sessions)
deriving DecidableEq

/-- The missing-data check run before any model call (src/app.py 80-86), in
its fixed order: flights, hotels, points; `points == 0` counts as missing. -/
def gateMissing (flights_raw hotels_raw : List Json) (points : Int) : List String :=
  (if flights_raw.isEmpty then ["flights list"] else []) ++
  (if hotels_raw.isEmpty then ["hotels list"] else []) ++
  (if points = 0 then ["user_points"] else [])

/-- The locally generated gate short-circuit message (src/app.py 89-93). -/
def needsInfoMsg (missing : List String) : String :=
  "I still need the following before I can build your itinerary: " ++
    String.intercalate ", " missing ++ ". Please provide them."

/-- The fixed clarification message for an unusable selector reply (line 183). -/
def clarifyMsg : String := "Could you clarify which flight or hotel you prefer?"

/-- JSON rendering of an `Optional[str]` value. -/
def jsonOfOptStr : Option String → Json
  | none => Json.null
  | some s => Json.str s

/-- `model_dump` of a Flight. -/
def flightJson (f : Flight) : Json :=
  Json.obj [("id", Json.str f.id), ("departure", Json.str f.departure),
    ("arrival", Json.str f.arrival), ("departure_date", jsonOfOptStr f.departure_date),
    ("arrival_date", jsonOfOptStr f.arrival_date), ("price", Json.num f.price)]

/-- `model_dump` of a Hotel. -/
def hotelJson (h : Hotel) : Json :=
  Json.obj [("id", Json.str h.id), ("name", Json.str h.name),
    ("price_per_night", Json.num h.price_per_night)]

/-- `model_dump` of a Selection. -/
def selectionJson (s : Selection) : Json :=
  Json.obj [("flight_id", Json.str s.flight_id), ("hotel_id", Json.str s.hotel_id)]

/-- `ItineraryInput(...).model_dump()` (src/app.py 186-192). -/
def itineraryInputJson (flights : List Flight) (hotels : List Hotel)
    (points : Int) (sel : Selection) : Json :=
  Json.obj [("flights", Json.arr (flights.map flightJson)),
    ("hotels", Json.arr (hotels.map hotelJson)),
    ("user_points", Json.num points), ("selection", selectionJson sel)]

/-- The FLIGHTS_JSON/HOTELS_JSON block appended to the selector prompt. -/
def extraBlock (flights_raw hotels_raw : List Json) : String :=
  "FLIGHTS_JSON: " ++ dumps (Json.arr flights_raw) ++ "\n" ++
    "HOTELS_JSON:  " ++ dumps (Json.arr hotels_raw)

/-- `"\n".join(history + [user_msg]) if history else user_msg` (line 144). -/
def selConv (history : List String) (user_msg : String) : String :=
  if history.isEmpty then user_msg
  else String.intercalate "\n" (history ++ [user_msg])

/-- The full selector prompt (line 149). -/
def selectorInputOf (history : List String) (user_msg : String)
    (flights_raw hotels_raw : List Json) : String :=
  selConv history user_msg ++ "\n" ++ extraBlock flights_raw hotels_raw

/-- Reconciliation of the selector reply (src/app.py 172-179): the typed
`final_output_as(Selection)` result if available, else `parse_selection`
on the raw text. -/
def reconcileSelection (r : SelReply) : Option Selection :=
  match r.structured with
  | some s => some s
  | none => parse_selection r.raw

/-- The `/chat` handler as a pure function of the session store, the request
and the two model oracles. -/
def chat (st : Sessions) (req : ChatRequest)
    (selO : String → SelReply) (fmtO : String → FmtReply) : ChatOutcome :=
  let uid := req.user_id.getD "default"
  let user_msg := req.message.getD ""
  let flights_raw := req.flights.getD []
  let hotels_raw := req.hotels.getD []
  let points := req.user_points.getD 0
  let missing := gateMissing flights_raw hotels_raw points
  if missing.isEmpty then
    match normalizeFlights flights_raw, normalizeHotels hotels_raw with
    | some flights, some hotels =>
        let st1 := sessionEnsure st uid
        let history := (lookupS st1 uid).getD []
        let selR := selO (selectorInputOf history user_msg flights_raw hotels_raw)
        let st2 := insertS st1 uid (history ++ [user_msg, selR.raw])
        match reconcileSelection selR with
        | none => ChatOutcome.resp ⟨clarifyMsg, none⟩ st2
        | some sel =>
            let fmtR := fmtO (dumps (itineraryInputJson flights hotels points sel))
            ChatOutcome.resp ⟨fmtR.raw, fmtR.structured⟩ st2
    | _, _ => ChatOutcome.serverError st
  else
    ChatOutcome.resp ⟨needsInfoMsg missing, none⟩ st

/-! ### Concrete fixtures (the catalog of the spec's worked example). -/

/-- Raw flight payload `{id: "F1", departure: "SFO", arrival: "NYC", price: 200}`. -/
def f1Json : Json :=
  Json.obj [("id", Json.str "F1"), ("departure", Json.str "SFO"),
    ("arrival", Json.str "NYC"), ("price", Json.num 200)]

/-- Raw hotel payload `{id: "H1", name: "Grand", price_per_night: 100}`. -/
def h1Json : Json :=
  Json.obj [("id", Json.str "H1"), ("name", Json.str "Grand"),
    ("price_per_night", Json.num 100)]

/-- The flight the normalizer produces from `f1Json`. -/
def f1 : Flight := ⟨"F1", "SFO", "NYC", none, none, 200⟩

/-- The hotel the normalizer produces from `h1Json`. -/
def h1 : Hotel := ⟨"H1", "Grand", 100⟩

/-- A complete request carrying the example catalog and 5000 points. -/
def baseReq : ChatRequest :=
  ⟨some "alice", some "book a trip", some [f1Json], some [h1Json], some 5000⟩

/-! ### Named intermediate values of one `/chat` turn, for stating theorems -/

/-- The history of the requesting user's session after get-or-create. -/
def histOf (st : Sessions) (uid : String) : List String :=
  (lookupS (sessionEnsure st uid) uid).getD []

/-- The prompt handed to the selector-stage oracle for this turn. -/
def selPrompt (st : Sessions) (req : ChatRequest) : String :=
  selectorInputOf (histOf st (req.user_id.getD "default")) (req.message.getD "")
    (req.flights.getD []) (req.hotels.getD [])

/-- The session store after the turn's two history appends. -/
def stAfter (st : Sessions) (req : ChatRequest) (rawReply : String) : Sessions :=
  insertS (sessionEnsure st (req.user_id.getD "default")) (req.user_id.getD "default")
    (histOf st (req.user_id.getD "default") ++ [req.message.getD "", rawReply])

/-- The prompt handed to the formatter-stage oracle. -/
def fmtPrompt (flights : List Flight) (hotels : List Hotel) (req : ChatRequest)
    (sel : Selection) : String :=
  dumps (itineraryInputJson flights hotels (req.user_points.getD 0) sel)

/-! ### Concrete oracles used by witnesses and counterexamples -/

/-- A selector oracle that answers in prose (reconciliation fails). -/
def selSilent : String → SelReply := fun _ => ⟨"no json here", none⟩

/-- A formatter oracle whose reply fails reconciliation. -/
def fmtSilent : String → FmtReply := fun _ => ⟨"fmt text", none⟩

/-- A selector oracle that returns a typed Selection. -/
def selPicks (s : Selection) : String → SelReply := fun _ => ⟨"picked", some s⟩

/-- A formatter oracle that returns a typed Itinerary. -/
def fmtBuilds (it : Itinerary) : String → FmtReply := fun _ => ⟨"built", some it⟩

/-- A request whose hotels list is present but empty. -/
def hotelsMissingReq : ChatRequest :=
  ⟨some "alice", some "hi", some [f1Json], some [], some 5000⟩

/-- A request that explicitly sets `user_points` to zero. -/
def zeroPointsReq : ChatRequest :=
  ⟨some "alice", some "book", some [f1Json], some [h1Json], some 0⟩

/-- A raw flight payload whose price is negative. -/
def badFlightJson : Json :=
  Json.obj [("id", Json.str "F9"), ("departure", Json.str "AAA"),
    ("arrival", Json.str "BBB"), ("price", Json.num (-100))]

/-- A request whose flights entry is not even an object. -/
def malformedCatalogReq : ChatRequest :=
  ⟨some "alice", some "go", some [Json.str "not an object"], some [h1Json], some 5000⟩

/-- A raw hotel payload whose nightly price is negative. -/
def badHotelJson : Json :=
  Json.obj [("id", Json.str "H9"), ("name", Json.str "Dive"),
    ("price_per_night", Json.num (-50))]

/-- A raw flight payload whose price is the numeric string "200" (accepted
by pydantic v2 lax coercion). -/
def strPriceFlightJson : Json :=
  Json.obj [("id", Json.str "F8"), ("departure", Json.str "AAA"),
    ("arrival", Json.str "BBB"), ("price", Json.str "200")]

/-- A request whose hotels entry is not even an object. -/
def malformedHotelsReq : ChatRequest :=
  ⟨some "alice", some "go", some [f1Json], some [Json.str "not an object"],
    some 5000⟩

/-! ### C8 -/

/-- A selection JSON whose flight id contains a raw U+2028 LINE SEPARATOR:
legal inside a JSON string (it is not a control character), but a line
boundary for Python `str.splitlines()`. -/
def lineSepText : String :=
  "\x7b\"flight_id\": \"a\u2028b\", \"hotel_id\": \"H1\"\x7d"

/-- `lineSepText` wrapped in one fence line at the top (with a language tag)
and one at the bottom. -/
def lineSepWrapped : String := "```json\n" ++ lineSepText ++ "\n```"

/-- A selection JSON followed by one NO-BREAK SPACE (U+00A0): `str.strip()`
removes it (it is Unicode whitespace), but it is not a `splitlines`
boundary and the JSON scanner does not skip it. -/
def nbspText : String :=
  "\x7b\"flight_id\": \"F1\", \"hotel_id\": \"H1\"\x7d\xa0"

/-- `nbspText` wrapped in one fence line at the top (with a language tag)
and one at the bottom. -/
def nbspWrapped : String := "```json\n" ++ nbspText ++ "\n```"

/-- The whitespace characters that survive into the padding produced by the
fence-cleaning analysis: plain JSON whitespace other than carriage return. -/
abbrev mildChar (c : Char) : Prop := c = ' ' ∨ c = '\t' ∨ c = '\n'

/-! ### Good lines: every line of a tokenizable text keeps the fence filter -/

/-- A line whose first non-whitespace character is neither a backtick nor the
letter `j` — such a line cannot be dropped by the fence filter. -/
def goodLine (l : List Char) : Prop :=
  ∀ c r, l.dropWhile isPyWs = c :: r → c ≠ '`' ∧ c ≠ 'j'

/-! ### C8 assembly -/

/-- Wrapping a text in one fence line at the top (optional language tag) and
one at the bottom. -/
def wrapFence (tagT tagB t : List Char) : List Char :=
  ('`' :: '`' :: '`' :: tagT) ++ '\n' :: t ++ '\n' :: ('`' :: '`' :: '`' :: tagB)


example : parse_selection "\x7b\"flight_id\": \"F1\", \"hotel_id\": \"H1\"\x7d" =
    some ⟨"F1", "H1"⟩ := by decide

example : parse_selection "```json\n\x7b\"flight_id\": \"F1\", \"hotel_id\": \"H1\"\x7d\n```" =
    some ⟨"F1", "H1"⟩ := by decide

example : parse_selection "I would pick the cheapest flight." = none := by decide

example : normalizeFlights [f1Json] = some [f1] := by decide

example :
    chat [] baseReq (fun _ => ⟨"selraw", some ⟨"F1", "H1"⟩⟩)
      (fun _ => ⟨"fmtraw", some ⟨f1, h1, 9999, 1, "n"⟩⟩) =
    ChatOutcome.resp ⟨"fmtraw", some ⟨f1, h1, 9999, 1, "n"⟩⟩
      [("alice", ["book a trip", "selraw"])] := by decide

/-! ### Session-store lemmas -/

lemma lookupS_insertS_self (st : Sessions) (k : String) (v : List String) :
    lookupS (insertS st k v) k = some v := by
  induction st with
  | nil => simp [insertS, lookupS]
  | cons p rest ih =>
      obtain ⟨k', v'⟩ := p
      by_cases h : k' = k
      · simp [insertS, h, lookupS]
      · simp [insertS, h, lookupS, ih]

lemma lookupS_insertS_ne (st : Sessions) (k u : String) (v : List String)
    (h : u ≠ k) : lookupS (insertS st k v) u = lookupS st u := by
  have hku : ¬(k = u) := fun e => h e.symm
  induction st with
  | nil =>
      simp only [insertS, lookupS]
      rw [if_neg hku]
  | cons p rest ih =>
      obtain ⟨k', v'⟩ := p
      by_cases hk : k' = k
      · subst hk
        simp only [insertS, if_pos rfl, lookupS]
        rw [if_neg hku, if_neg hku]
      · simp only [insertS, if_neg hk, lookupS]
        by_cases hu : k' = u
        · rw [if_pos hu, if_pos hu]
        · rw [if_neg hu, if_neg hu, ih]

lemma lookupS_sessionEnsure_self (st : Sessions) (uid : String) :
    lookupS (sessionEnsure st uid) uid = some ((lookupS st uid).getD []) := by
  unfold sessionEnsure
  cases h : lookupS st uid with
  | none => simp [h, lookupS_insertS_self]
  | some v => simp [h]

lemma lookupS_sessionEnsure_ne (st : Sessions) (uid u : String) (h : u ≠ uid) :
    lookupS (sessionEnsure st uid) u = lookupS st u := by
  unfold sessionEnsure
  cases hl : lookupS st uid with
  | none => simp [lookupS_insertS_ne st uid u [] h]
  | some v => simp

lemma histOf_eq (st : Sessions) (uid : String) :
    histOf st uid = (lookupS st uid).getD [] := by
  simp [histOf, lookupS_sessionEnsure_self]

/-! ### Unfolding lemmas for the four exits of `chat` -/

lemma chat_gate_eq (st : Sessions) (req : ChatRequest)
    (selO : String → SelReply) (fmtO : String → FmtReply)
    (h : (gateMissing (req.flights.getD []) (req.hotels.getD [])
        (req.user_points.getD 0)).isEmpty = false) :
    chat st req selO fmtO =
      ChatOutcome.resp
        ⟨needsInfoMsg (gateMissing (req.flights.getD []) (req.hotels.getD [])
          (req.user_points.getD 0)), none⟩ st := by
  unfold chat
  simp only [h, Bool.false_eq_true, if_false]

lemma chat_servererror_eq (st : Sessions) (req : ChatRequest)
    (selO : String → SelReply) (fmtO : String → FmtReply)
    (hmiss : (gateMissing (req.flights.getD []) (req.hotels.getD [])
        (req.user_points.getD 0)).isEmpty = true)
    (h : normalizeFlights (req.flights.getD []) = none ∨
         normalizeHotels (req.hotels.getD []) = none) :
    chat st req selO fmtO = ChatOutcome.serverError st := by
  unfold chat
  simp only [hmiss, if_true]
  rcases h with h | h
  · simp [h]
  · cases hf : normalizeFlights (req.flights.getD []) <;> simp [h, hf]

lemma chat_clarify_eq (st : Sessions) (req : ChatRequest)
    (selO : String → SelReply) (fmtO : String → FmtReply)
    (flights : List Flight) (hotels : List Hotel)
    (hmiss : (gateMissing (req.flights.getD []) (req.hotels.getD [])
        (req.user_points.getD 0)).isEmpty = true)
    (hf : normalizeFlights (req.flights.getD []) = some flights)
    (hh : normalizeHotels (req.hotels.getD []) = some hotels)
    (hsel : reconcileSelection (selO (selPrompt st req)) = none) :
    chat st req selO fmtO =
      ChatOutcome.resp ⟨clarifyMsg, none⟩
        (stAfter st req (selO (selPrompt st req)).raw) := by
  unfold chat stAfter
  simp only [hmiss, if_true, hf, hh]
  unfold selPrompt histOf at hsel ⊢
  simp only [hsel]

lemma chat_format_eq (st : Sessions) (req : ChatRequest)
    (selO : String → SelReply) (fmtO : String → FmtReply)
    (flights : List Flight) (hotels : List Hotel) (sel : Selection)
    (hmiss : (gateMissing (req.flights.getD []) (req.hotels.getD [])
        (req.user_points.getD 0)).isEmpty = true)
    (hf : normalizeFlights (req.flights.getD []) = some flights)
    (hh : normalizeHotels (req.hotels.getD []) = some hotels)
    (hsel : reconcileSelection (selO (selPrompt st req)) = some sel) :
    chat st req selO fmtO =
      ChatOutcome.resp
        ⟨(fmtO (fmtPrompt flights hotels req sel)).raw,
         (fmtO (fmtPrompt flights hotels req sel)).structured⟩
        (stAfter st req (selO (selPrompt st req)).raw) := by
  unfold chat stAfter fmtPrompt
  simp only [hmiss, if_true, hf, hh]
  unfold selPrompt histOf at hsel ⊢
  simp only [hsel]

lemma gateMissing_isEmpty_false (fr hr : List Json) (pts : Int)
    (h : fr.isEmpty = true ∨ hr.isEmpty = true ∨ pts = 0) :
    (gateMissing fr hr pts).isEmpty = false := by
  unfold gateMissing
  rcases h with h | h | h
  · rw [h]
    simp
  · rw [h]
    by_cases h1 : fr.isEmpty <;> simp [h1]
  · rw [if_pos h]
    by_cases h1 : fr.isEmpty <;> by_cases h2 : hr.isEmpty <;> simp [h1, h2]

/-! ### C6 -/

/-- C6: for every request in which at least one of flights, hotels or points
is missing (hotels empty counts even when the others are present), `chat`
returns the locally generated NEEDS_INFO response that enumerates exactly the
missing items in the fixed order flights, hotels, points, leaves the session
store untouched, and consults no model-collaborator oracle (the outcome is
identical for every pair of oracles). -/
theorem chat_gate_short_circuit (st : Sessions) (req : ChatRequest)
    (selO selO' : String → SelReply) (fmtO fmtO' : String → FmtReply)
    (h : (req.flights.getD []).isEmpty = true ∨ (req.hotels.getD []).isEmpty = true ∨
         req.user_points.getD 0 = 0) :
    chat st req selO fmtO =
      ChatOutcome.resp
        ⟨needsInfoMsg
          ((if (req.flights.getD []).isEmpty then ["flights list"] else []) ++
           (if (req.hotels.getD []).isEmpty then ["hotels list"] else []) ++
           (if req.user_points.getD 0 = 0 then ["user_points"] else [])), none⟩ st ∧
    chat st req selO fmtO = chat st req selO' fmtO' := by
  have hfalse := gateMissing_isEmpty_false _ _ _ h
  refine ⟨?_, ?_⟩
  · rw [chat_gate_eq st req selO fmtO hfalse]
    rfl
  · rw [chat_gate_eq st req selO fmtO hfalse, chat_gate_eq st req selO' fmtO' hfalse]

/-- C6 witness: empty hotels with flights and points present yields NEEDS_INFO
naming exactly "hotels list", with the store unchanged and the oracles unused. -/
theorem chat_gate_short_circuit_witness :
    chat [] hotelsMissingReq selSilent fmtSilent =
      ChatOutcome.resp
        ⟨needsInfoMsg
          ((if (hotelsMissingReq.flights.getD []).isEmpty then ["flights list"] else []) ++
           (if (hotelsMissingReq.hotels.getD []).isEmpty then ["hotels list"] else []) ++
           (if hotelsMissingReq.user_points.getD 0 = 0 then ["user_points"] else [])),
         none⟩ [] :=
  (chat_gate_short_circuit [] hotelsMissingReq selSilent (selPicks ⟨"F1", "H1"⟩)
    fmtSilent (fmtBuilds ⟨f1, h1, 0, 0, ""⟩) (Or.inr (Or.inl (by decide)))).1

/-! ### C9 -/

/-- C9: for every turn that passes the gate (and whose catalog normalizes),
the user message and the raw selector reply are appended, in order, to the
requesting user's session history — also when the turn exits with a
clarification — a first request finds an empty history (`getD []`), every
previously stored entry survives as a prefix, and no other user's session is
touched. -/
theorem chat_history_append (st : Sessions) (req : ChatRequest)
    (selO : String → SelReply) (fmtO : String → FmtReply)
    (flights : List Flight) (hotels : List Hotel)
    (hmiss : (gateMissing (req.flights.getD []) (req.hotels.getD [])
        (req.user_points.getD 0)).isEmpty = true)
    (hf : normalizeFlights (req.flights.getD []) = some flights)
    (hh : normalizeHotels (req.hotels.getD []) = some hotels) :
    ∃ r st', chat st req selO fmtO = ChatOutcome.resp r st' ∧
      lookupS st' (req.user_id.getD "default") =
        some ((lookupS st (req.user_id.getD "default")).getD [] ++
          [req.message.getD "", (selO (selPrompt st req)).raw]) ∧
      ∀ u, u ≠ req.user_id.getD "default" → lookupS st' u = lookupS st u := by
  have hlook : lookupS (stAfter st req (selO (selPrompt st req)).raw)
      (req.user_id.getD "default") =
      some ((lookupS st (req.user_id.getD "default")).getD [] ++
        [req.message.getD "", (selO (selPrompt st req)).raw]) := by
    unfold stAfter
    rw [lookupS_insertS_self, histOf_eq]
  have hother : ∀ u, u ≠ req.user_id.getD "default" →
      lookupS (stAfter st req (selO (selPrompt st req)).raw) u = lookupS st u := by
    intro u hu
    unfold stAfter
    rw [lookupS_insertS_ne _ _ _ _ hu, lookupS_sessionEnsure_ne _ _ _ hu]
  cases hsel : reconcileSelection (selO (selPrompt st req)) with
  | none =>
      exact ⟨_, _, chat_clarify_eq st req selO fmtO flights hotels hmiss hf hh hsel,
        hlook, hother⟩
  | some sel =>
      exact ⟨_, _, chat_format_eq st req selO fmtO flights hotels sel hmiss hf hh hsel,
        hlook, hother⟩

/-- C9 witness: a second turn for "alice" appends to her existing history and
leaves "bob"'s session untouched. -/
theorem chat_history_append_witness :
    ∃ r st', chat [("alice", ["old user msg", "old reply"]), ("bob", ["b"])]
        baseReq selSilent fmtSilent = ChatOutcome.resp r st' ∧
      lookupS st' (baseReq.user_id.getD "default") =
        some ((lookupS [("alice", ["old user msg", "old reply"]), ("bob", ["b"])]
            (baseReq.user_id.getD "default")).getD [] ++
          [baseReq.message.getD "",
           (selSilent (selPrompt [("alice", ["old user msg", "old reply"]), ("bob", ["b"])]
             baseReq)).raw]) ∧
      ∀ u, u ≠ baseReq.user_id.getD "default" →
        lookupS st' u =
          lookupS [("alice", ["old user msg", "old reply"]), ("bob", ["b"])] u :=
  chat_history_append _ _ _ _ [f1] [h1] (by decide) (by decide) (by decide)

/-! ### C10 -/

/-- C10: a turn that reaches the formatter appends exactly two entries to the
session history — the user message and the raw selector reply — while the
formatter's reply only feeds the response (its raw text as the message, its
reconciled record as the itinerary) and is never stored in history. -/
theorem chat_formatter_frame (st : Sessions) (req : ChatRequest)
    (selO : String → SelReply) (fmtO : String → FmtReply)
    (flights : List Flight) (hotels : List Hotel) (sel : Selection)
    (hmiss : (gateMissing (req.flights.getD []) (req.hotels.getD [])
        (req.user_points.getD 0)).isEmpty = true)
    (hf : normalizeFlights (req.flights.getD []) = some flights)
    (hh : normalizeHotels (req.hotels.getD []) = some hotels)
    (hsel : reconcileSelection (selO (selPrompt st req)) = some sel) :
    chat st req selO fmtO =
      ChatOutcome.resp
        ⟨(fmtO (fmtPrompt flights hotels req sel)).raw,
         (fmtO (fmtPrompt flights hotels req sel)).structured⟩
        (stAfter st req (selO (selPrompt st req)).raw) ∧
    lookupS (stAfter st req (selO (selPrompt st req)).raw)
        (req.user_id.getD "default") =
      some ((lookupS st (req.user_id.getD "default")).getD [] ++
        [req.message.getD "", (selO (selPrompt st req)).raw]) := by
  refine ⟨chat_format_eq st req selO fmtO flights hotels sel hmiss hf hh hsel, ?_⟩
  unfold stAfter
  rw [lookupS_insertS_self, histOf_eq]

/-- C10 witness: a formatter-reaching turn on the example catalog stores
exactly the user message and the raw selector reply. -/
theorem chat_formatter_frame_witness :
    chat [] baseReq (selPicks ⟨"F1", "H1"⟩) fmtSilent =
      ChatOutcome.resp
        ⟨(fmtSilent (fmtPrompt [f1] [h1] baseReq ⟨"F1", "H1"⟩)).raw,
         (fmtSilent (fmtPrompt [f1] [h1] baseReq ⟨"F1", "H1"⟩)).structured⟩
        (stAfter [] baseReq ((selPicks ⟨"F1", "H1"⟩) (selPrompt [] baseReq)).raw) ∧
    lookupS (stAfter [] baseReq ((selPicks ⟨"F1", "H1"⟩) (selPrompt [] baseReq)).raw)
        (baseReq.user_id.getD "default") =
      some ((lookupS [] (baseReq.user_id.getD "default")).getD [] ++
        [baseReq.message.getD "",
         ((selPicks ⟨"F1", "H1"⟩) (selPrompt [] baseReq)).raw]) :=
  chat_formatter_frame [] baseReq _ _ [f1] [h1] ⟨"F1", "H1"⟩
    (by decide) (by decide) (by decide) rfl

/-! ### C1 -/

/-- C1 counterexample: on the spec's own worked example (flight price 200,
hotel 100/night, 5000 points) the locally computable values are
`total_cost = 200 + 100*3 = 500` and `points_used = min(5000, 500/0.01) = 5000`,
yet when the formatter-stage model proposes `total_cost = 9999` and
`points_used = 1` the response returns those numbers unchanged: no local
computation or overwrite happens anywhere in `chat`. -/
theorem chat_numeric_overwrite_cex :
    chat [] baseReq (fun _ => ⟨"selraw", some ⟨"F1", "H1"⟩⟩)
        (fun _ => ⟨"Here is your plan", some ⟨f1, h1, 9999, 1, "enjoy"⟩⟩) =
      ChatOutcome.resp ⟨"Here is your plan", some ⟨f1, h1, 9999, 1, "enjoy"⟩⟩
        [("alice", ["book a trip", "selraw"])] ∧
    f1.price + h1.price_per_night * 3 = 500 ∧
    (9999 : Int) ≠ 500 ∧
    min (5000 : Int) (500 * 100) = 5000 ∧
    (1 : Int) ≠ 5000 := by
  refine ⟨by decide, by decide, by decide, by decide, by decide⟩

/-- C1 (amended): the FORMATTING stage performs no local computation and no
overwrite — whatever itinerary record the formatter-stage model collaborator
proposes is returned field-for-field unchanged (the cost and points formulas
exist only as prompt instructions to that model), with the formatter's raw
text as the response message. -/
theorem chat_formatter_passthrough (st : Sessions) (req : ChatRequest)
    (selO : String → SelReply) (fmtO : String → FmtReply)
    (flights : List Flight) (hotels : List Hotel) (sel : Selection) (it : Itinerary)
    (hmiss : (gateMissing (req.flights.getD []) (req.hotels.getD [])
        (req.user_points.getD 0)).isEmpty = true)
    (hf : normalizeFlights (req.flights.getD []) = some flights)
    (hh : normalizeHotels (req.hotels.getD []) = some hotels)
    (hsel : reconcileSelection (selO (selPrompt st req)) = some sel)
    (hit : (fmtO (fmtPrompt flights hotels req sel)).structured = some it) :
    chat st req selO fmtO =
      ChatOutcome.resp ⟨(fmtO (fmtPrompt flights hotels req sel)).raw, some it⟩
        (stAfter st req (selO (selPrompt st req)).raw) := by
  rw [chat_format_eq st req selO fmtO flights hotels sel hmiss hf hh hsel, hit]

/-- C1 witness: the passthrough applied to a proposal whose numbers disagree
with the prompt formulas. -/
theorem chat_formatter_passthrough_witness :
    chat [] baseReq (selPicks ⟨"F1", "H1"⟩) (fmtBuilds ⟨f1, h1, 9999, 1, "n"⟩) =
      ChatOutcome.resp
        ⟨((fmtBuilds ⟨f1, h1, 9999, 1, "n"⟩)
            (fmtPrompt [f1] [h1] baseReq ⟨"F1", "H1"⟩)).raw,
         some ⟨f1, h1, 9999, 1, "n"⟩⟩
        (stAfter [] baseReq ((selPicks ⟨"F1", "H1"⟩) (selPrompt [] baseReq)).raw) :=
  chat_formatter_passthrough [] baseReq _ _ [f1] [h1] ⟨"F1", "H1"⟩ ⟨f1, h1, 9999, 1, "n"⟩
    (by decide) (by decide) (by decide) rfl rfl

/-! ### C2 -/

/-- C2 counterexample: the catalog holds only flight "F1", yet a Selection
referencing the absent flight id "F999" is not rejected: no id re-validation
runs, the formatter stage is invoked anyway and its fabricated itinerary is
returned — the turn does not exit with the fixed CLARIFY message. -/
theorem chat_dangling_selection_cex :
    chat [] baseReq (fun _ => ⟨"selraw", some ⟨"F999", "H1"⟩⟩)
        (fun _ => ⟨"fabricated plan",
          some ⟨⟨"F999", "X", "Y", none, none, 777⟩, h1, 777, 0, "made up"⟩⟩) =
      ChatOutcome.resp
        ⟨"fabricated plan",
         some ⟨⟨"F999", "X", "Y", none, none, 777⟩, h1, 777, 0, "made up"⟩⟩
        [("alice", ["book a trip", "selraw"])] ∧
    normalizeFlights (baseReq.flights.getD []) = some [f1] ∧
    (∀ f ∈ [f1], f.id ≠ "F999") ∧
    "fabricated plan" ≠ clarifyMsg := by
  refine ⟨by decide, by decide, by decide, by decide⟩

/-- C2 (amended): after the selector stage yields a Selection, no validation
of the referenced ids against the current catalog occurs: even a Selection
whose flight id or hotel id is absent from the catalog is forwarded unchanged
to the formatter stage, whose reply becomes the response; the CLARIFY exit is
taken only when reconciliation of the selector reply fails. -/
theorem chat_no_revalidation (st : Sessions) (req : ChatRequest)
    (selO : String → SelReply) (fmtO : String → FmtReply)
    (flights : List Flight) (hotels : List Hotel) (sel : Selection)
    (hmiss : (gateMissing (req.flights.getD []) (req.hotels.getD [])
        (req.user_points.getD 0)).isEmpty = true)
    (hf : normalizeFlights (req.flights.getD []) = some flights)
    (hh : normalizeHotels (req.hotels.getD []) = some hotels)
    (hsel : reconcileSelection (selO (selPrompt st req)) = some sel)
    (_hdangling : sel.flight_id ∉ flights.map Flight.id ∨
                  sel.hotel_id ∉ hotels.map Hotel.id) :
    chat st req selO fmtO =
      ChatOutcome.resp
        ⟨(fmtO (fmtPrompt flights hotels req sel)).raw,
         (fmtO (fmtPrompt flights hotels req sel)).structured⟩
        (stAfter st req (selO (selPrompt st req)).raw) :=
  chat_format_eq st req selO fmtO flights hotels sel hmiss hf hh hsel

/-- C2 witness: the dangling selection "F999"/"H1" is handed to the formatter
stage and its reply is returned. -/
theorem chat_no_revalidation_witness :
    chat [] baseReq (selPicks ⟨"F999", "H1"⟩) fmtSilent =
      ChatOutcome.resp
        ⟨(fmtSilent (fmtPrompt [f1] [h1] baseReq ⟨"F999", "H1"⟩)).raw,
         (fmtSilent (fmtPrompt [f1] [h1] baseReq ⟨"F999", "H1"⟩)).structured⟩
        (stAfter [] baseReq ((selPicks ⟨"F999", "H1"⟩) (selPrompt [] baseReq)).raw) :=
  chat_no_revalidation [] baseReq _ _ [f1] [h1] ⟨"F999", "H1"⟩
    (by decide) (by decide) (by decide) rfl (Or.inl (by decide))

/-! ### C3 -/

/-- C3 counterexample: a formatter-stage reply that fails reconciliation is
not replaced by a fixed local clarification — the raw, malformed model text
is surfaced verbatim as the response message. -/
theorem chat_formatter_raw_surfaced_cex :
    chat [] baseReq (fun _ => ⟨"selraw", some ⟨"F1", "H1"⟩⟩)
        (fun _ => ⟨"((malformed model text))", none⟩) =
      ChatOutcome.resp ⟨"((malformed model text))", none⟩
        [("alice", ["book a trip", "selraw"])] ∧
    "((malformed model text))" ≠ clarifyMsg := by
  refine ⟨by decide, by decide⟩

/-- C3 (amended): a selector-stage reply that fails reconciliation ends the
turn at once with the fixed, locally generated clarification message, without
retrying any stage and without consulting the formatter oracle (the outcome
is the same for every formatter oracle); a formatter-stage reply that fails
reconciliation also ends the turn without retry, but its raw text is surfaced
verbatim as the message, with an empty itinerary. -/
theorem chat_malformed_reply_handling (st : Sessions) (req : ChatRequest)
    (selO : String → SelReply) (fmtO fmtO' : String → FmtReply)
    (flights : List Flight) (hotels : List Hotel)
    (hmiss : (gateMissing (req.flights.getD []) (req.hotels.getD [])
        (req.user_points.getD 0)).isEmpty = true)
    (hf : normalizeFlights (req.flights.getD []) = some flights)
    (hh : normalizeHotels (req.hotels.getD []) = some hotels) :
    (reconcileSelection (selO (selPrompt st req)) = none →
      chat st req selO fmtO =
        ChatOutcome.resp ⟨clarifyMsg, none⟩
          (stAfter st req (selO (selPrompt st req)).raw) ∧
      chat st req selO fmtO = chat st req selO fmtO') ∧
    (∀ sel, reconcileSelection (selO (selPrompt st req)) = some sel →
      (fmtO (fmtPrompt flights hotels req sel)).structured = none →
      chat st req selO fmtO =
        ChatOutcome.resp ⟨(fmtO (fmtPrompt flights hotels req sel)).raw, none⟩
          (stAfter st req (selO (selPrompt st req)).raw)) := by
  refine ⟨fun hsel => ⟨chat_clarify_eq st req selO fmtO flights hotels hmiss hf hh hsel, ?_⟩,
    fun sel hsel hfail => ?_⟩
  · rw [chat_clarify_eq st req selO fmtO flights hotels hmiss hf hh hsel,
      chat_clarify_eq st req selO fmtO' flights hotels hmiss hf hh hsel]
  · rw [chat_format_eq st req selO fmtO flights hotels sel hmiss hf hh hsel, hfail]

/-- C3 witness: a prose selector reply on the example catalog yields the fixed
clarification, for any formatter oracle. -/
theorem chat_malformed_reply_handling_witness :
    chat [] baseReq selSilent fmtSilent =
      ChatOutcome.resp ⟨clarifyMsg, none⟩
        (stAfter [] baseReq (selSilent (selPrompt [] baseReq)).raw) ∧
    chat [] baseReq selSilent fmtSilent =
      chat [] baseReq selSilent (fmtBuilds ⟨f1, h1, 0, 0, ""⟩) :=
  (chat_malformed_reply_handling [] baseReq selSilent fmtSilent
    (fmtBuilds ⟨f1, h1, 0, 0, ""⟩) [f1] [h1]
    (by decide) (by decide) (by decide)).1 (by decide)

/-! ### C4 -/

/-- C4 counterexample: a request that explicitly sets `user_points` to `0`
while supplying non-empty flights and hotels is not READY — the gate cannot
distinguish an explicit zero from an absent field (`data.get("user_points", 0)`
followed by `points == 0`), so the turn exits NEEDS_INFO naming
"user_points". -/
theorem chat_zero_points_cex :
    zeroPointsReq.user_points = some 0 ∧
    (zeroPointsReq.flights.getD []).isEmpty = false ∧
    (zeroPointsReq.hotels.getD []).isEmpty = false ∧
    chat [] zeroPointsReq selSilent fmtSilent =
      ChatOutcome.resp ⟨needsInfoMsg ["user_points"], none⟩ [] := by
  refine ⟨rfl, by decide, by decide, by decide⟩

/-- C4 (amended): the gate is READY exactly when the flights list is
non-empty, the hotels list is non-empty and the effective points value is
non-zero; a `user_points` of exactly zero is conflated with an absent field
(both produce the same missing-list), so an explicitly supplied zero still
triggers NEEDS_INFO naming points. -/
theorem gate_ready_characterization (fr hr : List Json) (pts : Option Int) :
    (gateMissing fr hr (pts.getD 0) = [] ↔
      fr.isEmpty = false ∧ hr.isEmpty = false ∧ pts.getD 0 ≠ 0) ∧
    gateMissing fr hr ((some (0 : Int)).getD 0) =
      gateMissing fr hr ((none : Option Int).getD 0) := by
  refine ⟨?_, rfl⟩
  unfold gateMissing
  cases fr <;> cases hr <;> by_cases h3 : pts.getD 0 = 0 <;>
    simp [h3, List.isEmpty]

/-- C4 witness: the READY characterization applied to the example catalog
with 5000 points. -/
theorem gate_ready_characterization_witness :
    gateMissing [f1Json] [h1Json] ((some (5000 : Int)).getD 0) = [] :=
  (gate_ready_characterization [f1Json] [h1Json] (some 5000)).1.mpr
    ⟨by decide, by decide, by decide⟩

/-! ### C5 -/

/-- C5 counterexample: a raw flight payload whose price is the negative
number -100 and a raw hotel payload whose nightly price is -50 are not
rejected by the normalizers — `Flight.price` and `Hotel.price_per_night`
are plain `float` fields with no sign constraint, so both entries are
accepted and no InvalidCatalogEntry-style failure occurs; moreover a price
given as the numeric string "200" also validates (pydantic lax coercion),
further from the "parses as a non-negative number" rule. -/
theorem normalize_negative_price_cex :
    (normalizeFlights [badFlightJson] =
      some [⟨"F9", "AAA", "BBB", none, none, -100⟩] ∧ (-100 : Int) < 0) ∧
    (normalizeHotels [badHotelJson] =
      some [⟨"H9", "Dive", -50⟩] ∧ (-50 : Int) < 0) ∧
    normalizeFlights [strPriceFlightJson] =
      some [⟨"F8", "AAA", "BBB", none, none, 200⟩] := by
  exact ⟨⟨by decide, by decide⟩, ⟨by decide, by decide⟩, by decide⟩

lemma normalizeFlights_isSome_iff (raws : List Json) :
    (normalizeFlights raws).isSome = true ↔
      ∀ r ∈ raws, (flightOfJson r).isSome = true := by
  induction raws with
  | nil => simp [normalizeFlights]
  | cons r rs ih =>
      constructor
      · intro hs
        intro x hx
        rcases List.mem_cons.mp hx with hx | hx
        · subst hx
          cases h : flightOfJson x with
          | none =>
              rw [show normalizeFlights (x :: rs) = none by
                simp [normalizeFlights, h]] at hs
              simp at hs
          | some f => simp
        · cases h : flightOfJson r with
          | none =>
              rw [show normalizeFlights (r :: rs) = none by
                simp [normalizeFlights, h]] at hs
              simp at hs
          | some f =>
              cases hrs : normalizeFlights rs with
              | none =>
                  rw [show normalizeFlights (r :: rs) = none by
                    simp [normalizeFlights, h, hrs]] at hs
                  simp at hs
              | some fs => exact (ih.mp (by simp [hrs])) x hx
      · intro hall
        have h1 : (flightOfJson r).isSome = true := hall r (List.mem_cons_self r rs)
        have h2 : (normalizeFlights rs).isSome = true :=
          ih.mpr fun x hx => hall x (List.mem_cons_of_mem r hx)
        rcases Option.isSome_iff_exists.mp h1 with ⟨f, hf⟩
        rcases Option.isSome_iff_exists.mp h2 with ⟨fs, hfs⟩
        simp [normalizeFlights, hf, hfs]

lemma normalizeHotels_isSome_iff (raws : List Json) :
    (normalizeHotels raws).isSome = true ↔
      ∀ r ∈ raws, (hotelOfJson r).isSome = true := by
  induction raws with
  | nil => simp [normalizeHotels]
  | cons r rs ih =>
      constructor
      · intro hs
        intro x hx
        rcases List.mem_cons.mp hx with hx | hx
        · subst hx
          cases h : hotelOfJson x with
          | none =>
              rw [show normalizeHotels (x :: rs) = none by
                simp [normalizeHotels, h]] at hs
              simp at hs
          | some f => simp
        · cases h : hotelOfJson r with
          | none =>
              rw [show normalizeHotels (r :: rs) = none by
                simp [normalizeHotels, h]] at hs
              simp at hs
          | some f =>
              cases hrs : normalizeHotels rs with
              | none =>
                  rw [show normalizeHotels (r :: rs) = none by
                    simp [normalizeHotels, h, hrs]] at hs
                  simp at hs
              | some fs => exact (ih.mp (by simp [hrs])) x hx
      · intro hall
        have h1 : (hotelOfJson r).isSome = true := hall r (List.mem_cons_self r rs)
        have h2 : (normalizeHotels rs).isSome = true :=
          ih.mpr fun x hx => hall x (List.mem_cons_of_mem r hx)
        rcases Option.isSome_iff_exists.mp h1 with ⟨f, hf⟩
        rcases Option.isSome_iff_exists.mp h2 with ⟨fs, hfs⟩
        simp [normalizeHotels, hf, hfs]

/-- C5 (amended): validation is all-or-nothing for both batches — the
flights (resp. hotels) batch normalizes exactly when every entry validates,
so no partial catalog is ever produced — but a numeric price field is only
required to be a number or a numeric string (pydantic lax coercion), with
no sign constraint, so negative values are accepted contrary to the
non-negativity rule; and a failing batch of either kind aborts the request
as an unhandled validation exception (an HTTP 500 server error with the
session store untouched), not as a crafted InvalidCatalogEntry 4xx
response. -/
theorem catalog_batch_validation (raws : List Json) (st : Sessions)
    (req : ChatRequest) (selO : String → SelReply) (fmtO : String → FmtReply) :
    ((normalizeFlights raws).isSome = true ↔
      ∀ r ∈ raws, (flightOfJson r).isSome = true) ∧
    ((normalizeHotels raws).isSome = true ↔
      ∀ r ∈ raws, (hotelOfJson r).isSome = true) ∧
    ((gateMissing (req.flights.getD []) (req.hotels.getD [])
        (req.user_points.getD 0)).isEmpty = true →
      (normalizeFlights (req.flights.getD []) = none ∨
        normalizeHotels (req.hotels.getD []) = none) →
      chat st req selO fmtO = ChatOutcome.serverError st) :=
  ⟨normalizeFlights_isSome_iff raws,
   normalizeHotels_isSome_iff raws,
   fun hmiss hnone => chat_servererror_eq st req selO fmtO hmiss hnone⟩

/-- C5 witness: a malformed flights batch, and likewise a malformed hotels
batch, passes the gate but aborts the request as a server error, leaving
the store unchanged. -/
theorem catalog_batch_validation_witness :
    chat [] malformedCatalogReq selSilent fmtSilent = ChatOutcome.serverError [] ∧
    chat [] malformedHotelsReq selSilent fmtSilent = ChatOutcome.serverError [] :=
  ⟨(catalog_batch_validation [] [] malformedCatalogReq selSilent fmtSilent).2.2
      (by decide) (Or.inl (by decide)),
   (catalog_batch_validation [] [] malformedHotelsReq selSilent fmtSilent).2.2
      (by decide) (Or.inr (by decide))⟩

/-! ### C7 -/

/-- C7 counterexample: when every extraction strategy fails, `parse_selection`
returns the bare `None` — two distinct raw texts produce the *same* failure
value, so the failure result cannot be carrying the original raw text
verbatim (the raw text survives only in the caller's local variable). -/
theorem reconcile_failure_carries_nothing_cex :
    parse_selection "gibberish reply one" = none ∧
    parse_selection "another gibberish reply" = none ∧
    "gibberish reply one" ≠ "another gibberish reply" := by
  refine ⟨by decide, by decide, by decide⟩

/-- C7 (amended): reconciliation never raises — `parse_selection` is a total
function into an `Option`, and for every selector and formatter reply (any
raw text whatsoever) a gate-passing, well-catalogued turn completes with a
well-formed JSON response, never an unhandled exception; but the failure
value is the bare `None`, carrying nothing (the caller keeps the raw text in
its own variable and surfaces a fixed clarification instead). -/
theorem chat_reconcile_total (st : Sessions) (req : ChatRequest)
    (selO : String → SelReply) (fmtO : String → FmtReply)
    (flights : List Flight) (hotels : List Hotel)
    (hmiss : (gateMissing (req.flights.getD []) (req.hotels.getD [])
        (req.user_points.getD 0)).isEmpty = true)
    (hf : normalizeFlights (req.flights.getD []) = some flights)
    (hh : normalizeHotels (req.hotels.getD []) = some hotels) :
    ∃ r st', chat st req selO fmtO = ChatOutcome.resp r st' := by
  cases hsel : reconcileSelection (selO (selPrompt st req)) with
  | none =>
      exact ⟨_, _, chat_clarify_eq st req selO fmtO flights hotels hmiss hf hh hsel⟩
  | some sel =>
      exact ⟨_, _, chat_format_eq st req selO fmtO flights hotels sel hmiss hf hh hsel⟩

/-- C7 witness: a prose-only selector reply still yields a well-formed
response. -/
theorem chat_reconcile_total_witness :
    ∃ r st', chat [] baseReq selSilent fmtSilent = ChatOutcome.resp r st' :=
  chat_reconcile_total [] baseReq selSilent fmtSilent [f1] [h1]
    (by decide) (by decide) (by decide)

example : parse_selection lineSepText = some ⟨"a\u2028b", "H1"⟩ := by decide

example : parse_selection lineSepWrapped = none := by decide

/-! ### Tokenizer infrastructure: length bounds and fuel irrelevance -/

lemma takeDigits_append_eq (cs : List Char) :
    (takeDigits cs).1 ++ (takeDigits cs).2 = cs := by
  induction cs with
  | nil => rfl
  | cons c rest ih =>
      unfold takeDigits
      by_cases h : c.isDigit <;> simp [h, ih]

lemma takeDigits_snd_length (cs : List Char) :
    (takeDigits cs).2.length ≤ cs.length := by
  conv_rhs => rw [← takeDigits_append_eq cs]
  rw [List.length_append]
  omega

lemma readStringBody_length :
    ∀ (n : Nat) (cs : List Char), cs.length ≤ n →
      ∀ s r, readStringBody cs = some (s, r) → r.length ≤ cs.length := by
  intro n
  induction n with
  | zero =>
      intro cs hlen s r hr
      have : cs = [] := List.length_eq_zero.mp (Nat.le_zero.mp hlen)
      subst this
      simp [readStringBody] at hr
  | succ n ih =>
      intro cs hlen s r hr
      cases cs with
      | nil => simp [readStringBody] at hr
      | cons c rest =>
          unfold readStringBody at hr
          by_cases h1 : c = '"'
          · rw [if_pos h1] at hr
            cases hr
            simp
          · rw [if_neg h1] at hr
            by_cases h2 : c = '\\'
            · rw [if_pos h2] at hr
              cases rest with
              | nil => cases hr
              | cons e r2 =>
                  dsimp only at hr
                  by_cases h3 : e = 'u'
                  · rw [if_pos h3] at hr
                    cases r2 with
                    | nil => simp at hr
                    | cons a r2a =>
                    cases r2a with
                    | nil => simp at hr
                    | cons b r2b =>
                    cases r2b with
                    | nil => simp at hr
                    | cons c2 r2c =>
                    cases r2c with
                    | nil => simp at hr
                    | cons d r3 =>
                    dsimp only at hr
                    split at hr
                    · rcases Option.map_eq_some'.mp hr with ⟨p, hp, hpe⟩
                      have hr3 : r3.length ≤ n := by
                        simp at hlen
                        omega
                      have := ih r3 hr3 p.1 p.2 (by rw [hp])
                      cases hpe
                      simp
                      omega
                    · cases hr
                  · rw [if_neg h3] at hr
                    cases hde : decodeEsc e with
                    | none => rw [hde] at hr; cases hr
                    | some ch =>
                        rw [hde] at hr
                        rcases Option.map_eq_some'.mp hr with ⟨p, hp, hpe⟩
                        have hr2 : r2.length ≤ n := by
                          simp at hlen
                          omega
                        have := ih r2 hr2 p.1 p.2 (by rw [hp])
                        cases hpe
                        simp
                        omega
            · rw [if_neg h2] at hr
              by_cases h4 : c.toNat < 32
              · rw [if_pos h4] at hr
                cases hr
              · rw [if_neg h4] at hr
                rcases Option.map_eq_some'.mp hr with ⟨p, hp, hpe⟩
                have hrl : rest.length ≤ n := by
                  simp at hlen
                  omega
                have := ih rest hrl p.1 p.2 (by rw [hp])
                cases hpe
                simp
                omega

lemma readNumTok_length (cs : List Char) :
    ∀ nV r, readNumTok cs = some (nV, r) → r.length < cs.length := by
  cases cs with
  | nil => simp [readNumTok]
  | cons c rest =>
      intro nV r h
      unfold readNumTok at h
      dsimp only at h
      by_cases hc : c = '-'
      · rw [if_pos hc] at h
        split at h
        · cases h
        · cases h
          have := takeDigits_snd_length rest
          simp
          omega
      · rw [if_neg hc] at h
        split at h
        · cases h
        · rename_i hne
          cases h
          have hap := takeDigits_append_eq (c :: rest)
          have hne' : (takeDigits (c :: rest)).1 ≠ [] := by
            intro he
            rw [he] at hne
            simp at hne
          have h1 : 1 ≤ (takeDigits (c :: rest)).1.length := by
            cases hx : (takeDigits (c :: rest)).1 with
            | nil => exact absurd hx hne'
            | cons a b => simp
          have := congrArg List.length hap
          rw [List.length_append] at this
          omega

lemma tokenizeF_mono :
    ∀ (n : Nat) (cs : List Char), cs.length ≤ n →
      ∀ f g, cs.length < f → cs.length < g → tokenizeF f cs = tokenizeF g cs := by
  intro n
  induction n with
  | zero =>
      intro cs hlen f g hf hg
      have : cs = [] := List.length_eq_zero.mp (Nat.le_zero.mp hlen)
      subst this
      cases f with
      | zero => omega
      | succ f' =>
          cases g with
          | zero => omega
          | succ g' => rfl
  | succ n ih =>
      intro cs hlen f g hf hg
      cases cs with
      | nil =>
          cases f with
          | zero => omega
          | succ f' =>
              cases g with
              | zero => omega
              | succ g' => rfl
      | cons c rest =>
          cases f with
          | zero => omega
          | succ f' =>
          cases g with
          | zero => omega
          | succ g' =>
          have hrest : rest.length ≤ n := by
            simp at hlen
            omega
          have hrf : rest.length < f' := by
            simp at hf
            omega
          have hrg : rest.length < g' := by
            simp at hg
            omega
          simp only [tokenizeF]
          by_cases h1 : isJsonWs c
          · rw [if_pos h1, if_pos h1, ih rest hrest f' g' hrf hrg]
          · rw [if_neg h1, if_neg h1]
            by_cases h2 : c = '{'
            · rw [if_pos h2, if_pos h2, ih rest hrest f' g' hrf hrg]
            rw [if_neg h2, if_neg h2]
            by_cases h3 : c = '}'
            · rw [if_pos h3, if_pos h3, ih rest hrest f' g' hrf hrg]
            rw [if_neg h3, if_neg h3]
            by_cases h4 : c = '['
            · rw [if_pos h4, if_pos h4, ih rest hrest f' g' hrf hrg]
            rw [if_neg h4, if_neg h4]
            by_cases h5 : c = ']'
            · rw [if_pos h5, if_pos h5, ih rest hrest f' g' hrf hrg]
            rw [if_neg h5, if_neg h5]
            by_cases h6 : c = ','
            · rw [if_pos h6, if_pos h6, ih rest hrest f' g' hrf hrg]
            rw [if_neg h6, if_neg h6]
            by_cases h7 : c = ':'
            · rw [if_pos h7, if_pos h7, ih rest hrest f' g' hrf hrg]
            rw [if_neg h7, if_neg h7]
            by_cases h8 : c = '"'
            · rw [if_pos h8, if_pos h8]
              cases hs : readStringBody rest with
              | none => rfl
              | some p =>
                  obtain ⟨s, r⟩ := p
                  have hrl : r.length ≤ rest.length :=
                    readStringBody_length rest.length rest le_rfl s r hs
                  dsimp only
                  rw [ih r (by omega) f' g' (by omega) (by omega)]
            rw [if_neg h8, if_neg h8]
            by_cases h9 : (c = '-' || c.isDigit) = true
            · rw [if_pos h9, if_pos h9]
              cases hn : readNumTok (c :: rest) with
              | none => rfl
              | some p =>
                  obtain ⟨nV, r⟩ := p
                  have hrl : r.length < (c :: rest).length :=
                    readNumTok_length (c :: rest) nV r hn
                  simp only [List.length_cons] at hrl
                  dsimp only
                  rw [ih r (by omega) f' g' (by omega) (by omega)]
            rw [if_neg h9, if_neg h9]
            by_cases h10 : c = 't'
            · rw [if_pos h10, if_pos h10]
              cases rest with
              | nil => rfl
              | cons r1 q1 =>
              cases q1 with
              | nil => rfl
              | cons r2 q2 =>
              cases q2 with
              | nil => rfl
              | cons r3 q3 =>
                  dsimp only
                  by_cases hb : (r1 = 'r' && r2 = 'u' && r3 = 'e') = true
                  · rw [if_pos hb, if_pos hb]
                    rw [ih q3 (by simp at hlen; omega) f' g' (by simp at hf; omega)
                      (by simp at hg; omega)]
                  · rw [if_neg hb, if_neg hb]
            rw [if_neg h10, if_neg h10]
            by_cases h11 : c = 'f'
            · rw [if_pos h11, if_pos h11]
              cases rest with
              | nil => rfl
              | cons r1 q1 =>
              cases q1 with
              | nil => rfl
              | cons r2 q2 =>
              cases q2 with
              | nil => rfl
              | cons r3 q3 =>
              cases q3 with
              | nil => rfl
              | cons r4 q4 =>
                  dsimp only
                  by_cases hb : (r1 = 'a' && r2 = 'l' && r3 = 's' && r4 = 'e') = true
                  · rw [if_pos hb, if_pos hb]
                    rw [ih q4 (by simp at hlen; omega) f' g' (by simp at hf; omega)
                      (by simp at hg; omega)]
                  · rw [if_neg hb, if_neg hb]
            rw [if_neg h11, if_neg h11]
            by_cases h12 : c = 'n'
            · rw [if_pos h12, if_pos h12]
              cases rest with
              | nil => rfl
              | cons r1 q1 =>
              cases q1 with
              | nil => rfl
              | cons r2 q2 =>
              cases q2 with
              | nil => rfl
              | cons r3 q3 =>
                  dsimp only
                  by_cases hb : (r1 = 'u' && r2 = 'l' && r3 = 'l') = true
                  · rw [if_pos hb, if_pos hb]
                    rw [ih q3 (by simp at hlen; omega) f' g' (by simp at hf; omega)
                      (by simp at hg; omega)]
                  · rw [if_neg hb, if_neg hb]
            rw [if_neg h12, if_neg h12]

lemma tokenize_eq_tokenizeF (f : Nat) (cs : List Char) (h : cs.length < f) :
    tokenizeF f cs = tokenize cs :=
  tokenizeF_mono cs.length cs le_rfl f (cs.length + 1) h (Nat.lt_succ_self _)

lemma tokenize_nil : tokenize [] = some [] := rfl

/-- One-step unfolding of the tokenizer with full-fuel recursive occurrences. -/
lemma tokenize_cons_eq (c : Char) (rest : List Char) :
    tokenize (c :: rest) =
      (if isJsonWs c then tokenize rest
      else if c = '{' then (tokenize rest).map (Tok.lbrace :: ·)
      else if c = '}' then (tokenize rest).map (Tok.rbrace :: ·)
      else if c = '[' then (tokenize rest).map (Tok.lbrack :: ·)
      else if c = ']' then (tokenize rest).map (Tok.rbrack :: ·)
      else if c = ',' then (tokenize rest).map (Tok.comma :: ·)
      else if c = ':' then (tokenize rest).map (Tok.colon :: ·)
      else if c = '"' then
        match readStringBody rest with
        | some (s, r) => (tokenize r).map (Tok.str s :: ·)
        | none => none
      else if c = '-' || c.isDigit then
        match readNumTok (c :: rest) with
        | some (n, r) => (tokenize r).map (Tok.num n :: ·)
        | none => none
      else if c = 't' then
        match rest with
        | r1 :: r2 :: r3 :: r =>
            if r1 = 'r' && r2 = 'u' && r3 = 'e' then
              (tokenize r).map (Tok.tTrue :: ·)
            else none
        | _ => none
      else if c = 'f' then
        match rest with
        | r1 :: r2 :: r3 :: r4 :: r =>
            if r1 = 'a' && r2 = 'l' && r3 = 's' && r4 = 'e' then
              (tokenize r).map (Tok.tFalse :: ·)
            else none
        | _ => none
      else if c = 'n' then
        match rest with
        | r1 :: r2 :: r3 :: r =>
            if r1 = 'u' && r2 = 'l' && r3 = 'l' then
              (tokenize r).map (Tok.tNull :: ·)
            else none
        | _ => none
      else none) := by
  conv_lhs => rw [tokenize]
  simp only [tokenizeF, List.length_cons]
  have hfuel : tokenizeF (rest.length + 1) rest = tokenize rest := rfl
  rw [hfuel]
  by_cases h1 : isJsonWs c
  · rw [if_pos h1, if_pos h1]
  rw [if_neg h1, if_neg h1]
  by_cases h2 : c = '{'
  · rw [if_pos h2, if_pos h2]
  rw [if_neg h2, if_neg h2]
  by_cases h3 : c = '}'
  · rw [if_pos h3, if_pos h3]
  rw [if_neg h3, if_neg h3]
  by_cases h4 : c = '['
  · rw [if_pos h4, if_pos h4]
  rw [if_neg h4, if_neg h4]
  by_cases h5 : c = ']'
  · rw [if_pos h5, if_pos h5]
  rw [if_neg h5, if_neg h5]
  by_cases h6 : c = ','
  · rw [if_pos h6, if_pos h6]
  rw [if_neg h6, if_neg h6]
  by_cases h7 : c = ':'
  · rw [if_pos h7, if_pos h7]
  rw [if_neg h7, if_neg h7]
  by_cases h8 : c = '"'
  · rw [if_pos h8, if_pos h8]
    cases hs : readStringBody rest with
    | none => rfl
    | some p =>
        obtain ⟨s, r⟩ := p
        dsimp only
        have hrl := readStringBody_length rest.length rest le_rfl s r hs
        rw [tokenize_eq_tokenizeF _ r (by omega)]
  rw [if_neg h8, if_neg h8]
  by_cases h9 : (c = '-' || c.isDigit) = true
  · rw [if_pos h9, if_pos h9]
    cases hn : readNumTok (c :: rest) with
    | none => rfl
    | some p =>
        obtain ⟨nV, r⟩ := p
        dsimp only
        have hrl := readNumTok_length (c :: rest) nV r hn
        simp only [List.length_cons] at hrl
        rw [tokenize_eq_tokenizeF _ r (by omega)]
  rw [if_neg h9, if_neg h9]
  by_cases h10 : c = 't'
  · rw [if_pos h10, if_pos h10]
    cases rest with
    | nil => rfl
    | cons r1 q1 =>
    cases q1 with
    | nil => rfl
    | cons r2 q2 =>
    cases q2 with
    | nil => rfl
    | cons r3 r =>
        dsimp only
        by_cases hb : (r1 = 'r' && r2 = 'u' && r3 = 'e') = true
        · rw [if_pos hb, if_pos hb,
            tokenize_eq_tokenizeF _ r (by simp only [List.length_cons]; omega)]
        · rw [if_neg hb, if_neg hb]
  rw [if_neg h10, if_neg h10]
  by_cases h11 : c = 'f'
  · rw [if_pos h11, if_pos h11]
    cases rest with
    | nil => rfl
    | cons r1 q1 =>
    cases q1 with
    | nil => rfl
    | cons r2 q2 =>
    cases q2 with
    | nil => rfl
    | cons r3 q3 =>
    cases q3 with
    | nil => rfl
    | cons r4 r =>
        dsimp only
        by_cases hb : (r1 = 'a' && r2 = 'l' && r3 = 's' && r4 = 'e') = true
        · rw [if_pos hb, if_pos hb,
            tokenize_eq_tokenizeF _ r (by simp only [List.length_cons]; omega)]
        · rw [if_neg hb, if_neg hb]
  rw [if_neg h11, if_neg h11]
  by_cases h12 : c = 'n'
  · rw [if_pos h12, if_pos h12]
    cases rest with
    | nil => rfl
    | cons r1 q1 =>
    cases q1 with
    | nil => rfl
    | cons r2 q2 =>
    cases q2 with
    | nil => rfl
    | cons r3 r =>
        dsimp only
        by_cases hb : (r1 = 'u' && r2 = 'l' && r3 = 'l') = true
        · rw [if_pos hb, if_pos hb,
            tokenize_eq_tokenizeF _ r (by simp only [List.length_cons]; omega)]
        · rw [if_neg hb, if_neg hb]
  rw [if_neg h12, if_neg h12]

lemma mildChar_isJsonWs {c : Char} (hc : mildChar c) : isJsonWs c = true := by
  rcases hc with h | h | h <;> subst h <;> decide

lemma mildChar_not_digit {c : Char} (hc : mildChar c) : c.isDigit = false := by
  rcases hc with h | h | h <;> subst h <;> decide

lemma mildChar_ne {c : Char} (hc : mildChar c) (d : Char)
    (hd : ¬mildChar d) : c ≠ d := by
  rcases hc with h | h | h <;> subst h <;>
    (intro he; exact hd (by rw [← he]; first | exact Or.inl rfl | exact Or.inr (Or.inl rfl) | exact Or.inr (Or.inr rfl)))

lemma readStringBody_some_append (x : List Char) :
    ∀ (n : Nat) (cs : List Char), cs.length ≤ n → ∀ s r,
      readStringBody cs = some (s, r) →
      readStringBody (cs ++ x) = some (s, r ++ x) := by
  intro n
  induction n with
  | zero =>
      intro cs hlen s r hr
      have : cs = [] := List.length_eq_zero.mp (Nat.le_zero.mp hlen)
      subst this
      simp [readStringBody] at hr
  | succ n ih =>
      intro cs hlen s r hr
      cases cs with
      | nil => simp [readStringBody] at hr
      | cons c rest =>
          simp only [List.cons_append]
          unfold readStringBody at hr ⊢
          by_cases h1 : c = '"'
          · rw [if_pos h1] at hr ⊢
            cases hr
            rfl
          · rw [if_neg h1] at hr ⊢
            by_cases h2 : c = '\\'
            · rw [if_pos h2] at hr ⊢
              cases rest with
              | nil => cases hr
              | cons e r2 =>
                  dsimp only at hr
                  rw [show (e :: r2) ++ x = e :: (r2 ++ x) from rfl]
                  dsimp only
                  by_cases h3 : e = 'u'
                  · rw [if_pos h3] at hr ⊢
                    cases r2 with
                    | nil => simp at hr
                    | cons a r2a =>
                    cases r2a with
                    | nil => simp at hr
                    | cons b r2b =>
                    cases r2b with
                    | nil => simp at hr
                    | cons c2 r2c =>
                    cases r2c with
                    | nil => simp at hr
                    | cons d r3 =>
                    dsimp only at hr
                    split at hr
                    · rename_i hhex
                      simp only [List.cons_append]
                      rw [if_pos hhex]
                      rcases Option.map_eq_some'.mp hr with ⟨p, hp, hpe⟩
                      have hr3 : r3.length ≤ n := by
                        simp at hlen
                        omega
                      rw [ih r3 hr3 p.1 p.2 (by rw [hp])]
                      cases hpe
                      rfl
                    · cases hr
                  · rw [if_neg h3] at hr ⊢
                    cases hde : decodeEsc e with
                    | none => rw [hde] at hr; simp at hr
                    | some ch =>
                        rw [hde] at hr
                        dsimp only at hr ⊢
                        rcases Option.map_eq_some'.mp hr with ⟨p, hp, hpe⟩
                        have hr2 : r2.length ≤ n := by
                          simp at hlen
                          omega
                        rw [ih r2 hr2 p.1 p.2 (by rw [hp])]
                        cases hpe
                        rfl
            · rw [if_neg h2] at hr ⊢
              by_cases h4 : c.toNat < 32
              · rw [if_pos h4] at hr
                cases hr
              · rw [if_neg h4] at hr ⊢
                rcases Option.map_eq_some'.mp hr with ⟨p, hp, hpe⟩
                have hrl : rest.length ≤ n := by
                  simp at hlen
                  omega
                rw [ih rest hrl p.1 p.2 (by rw [hp])]
                cases hpe
                rfl

lemma readStringBody_none_append_one (c : Char) (hc : mildChar c) :
    ∀ (n : Nat) (cs : List Char), cs.length ≤ n →
      readStringBody cs = none → readStringBody (cs ++ [c]) = none := by
  intro n
  induction n with
  | zero =>
      intro cs hlen _
      have : cs = [] := List.length_eq_zero.mp (Nat.le_zero.mp hlen)
      subst this
      rcases hc with h | h | h <;> subst h <;> decide
  | succ n ih =>
      intro cs hlen hr
      cases cs with
      | nil =>
          rcases hc with h | h | h <;> subst h <;> decide
      | cons d rest =>
          simp only [List.cons_append]
          unfold readStringBody at hr ⊢
          by_cases h1 : d = '"'
          · rw [if_pos h1] at hr
            cases hr
          · rw [if_neg h1] at hr ⊢
            by_cases h2 : d = '\\'
            · rw [if_pos h2] at hr ⊢
              cases rest with
              | nil =>
                  rcases hc with h | h | h <;> subst h <;> rfl
              | cons e r2 =>
                  dsimp only at hr
                  rw [show (e :: r2) ++ [c] = e :: (r2 ++ [c]) from rfl]
                  dsimp only
                  by_cases h3 : e = 'u'
                  · rw [if_pos h3] at hr ⊢
                    cases r2 with
                    | nil =>
                        rcases hc with h | h | h <;> subst h <;> rfl
                    | cons a r2a =>
                    cases r2a with
                    | nil =>
                        rcases hc with h | h | h <;> subst h <;> rfl
                    | cons b r2b =>
                    cases r2b with
                    | nil =>
                        rcases hc with h | h | h <;> subst h <;> rfl
                    | cons c2 r2c =>
                    cases r2c with
                    | nil =>
                        simp only [List.cons_append, List.nil_append]
                        have hx : isHex c = false := by
                          rcases hc with h | h | h <;> subst h <;> decide
                        rw [if_neg (by simp [hx])]
                    | cons dd r3 =>
                        dsimp only at hr
                        split at hr
                        · rename_i hhex
                          simp only [List.cons_append]
                          rw [if_pos hhex]
                          have hnone : readStringBody r3 = none := by
                            cases hrr : readStringBody r3 with
                            | none => rfl
                            | some p => rw [hrr] at hr; simp at hr
                          have hr3 : r3.length ≤ n := by
                            simp at hlen
                            omega
                          rw [ih r3 hr3 hnone]
                          rfl
                        · rename_i hhex
                          simp only [List.cons_append]
                          rw [if_neg hhex]
                  · rw [if_neg h3] at hr ⊢
                    cases hde : decodeEsc e with
                    | none => rfl
                    | some ch =>
                        rw [hde] at hr
                        dsimp only at hr ⊢
                        have hnone : readStringBody r2 = none := by
                          cases hrr : readStringBody r2 with
                          | none => rfl
                          | some p => rw [hrr] at hr; simp at hr
                        have hr2 : r2.length ≤ n := by
                          simp at hlen
                          omega
                        rw [ih r2 hr2 hnone]
                        rfl
            · rw [if_neg h2] at hr ⊢
              by_cases h4 : d.toNat < 32
              · rw [if_pos h4]
              · rw [if_neg h4] at hr ⊢
                have hnone : readStringBody rest = none := by
                  cases hrr : readStringBody rest with
                  | none => rfl
                  | some p => rw [hrr] at hr; simp at hr
                have hrl : rest.length ≤ n := by
                  simp at hlen
                  omega
                rw [ih rest hrl hnone]
                rfl

lemma takeDigits_append (ws : List Char) (hws : ∀ d ∈ ws, d.isDigit = false) :
    ∀ xs, takeDigits (xs ++ ws) = ((takeDigits xs).1, (takeDigits xs).2 ++ ws) := by
  intro xs
  induction xs with
  | nil =>
      simp only [List.nil_append]
      cases ws with
      | nil => rfl
      | cons w ws' =>
          unfold takeDigits
          rw [if_neg (by simp [hws w (List.mem_cons_self w ws')])]
          rfl
  | cons x xs' ih =>
      simp only [List.cons_append]
      unfold takeDigits
      by_cases hx : x.isDigit
      · simp only [if_pos hx, ih]
      · simp only [if_neg hx]
        rfl

lemma readNumTok_append (ws : List Char) (hd : ∀ d ∈ ws, d.isDigit = false)
    (hm : ∀ d ∈ ws, d ≠ '-') (cs : List Char) :
    readNumTok (cs ++ ws) = (readNumTok cs).map (fun p => (p.1, p.2 ++ ws)) := by
  cases cs with
  | nil =>
      simp only [List.nil_append]
      cases ws with
      | nil => rfl
      | cons w ws' =>
          unfold readNumTok
          dsimp only
          rw [if_neg (hm w (List.mem_cons_self w ws'))]
          have : takeDigits (w :: ws') = ([], w :: ws') := by
            unfold takeDigits
            rw [if_neg (by simp [hd w (List.mem_cons_self w ws')])]
          rw [this]
          rfl
  | cons c rest =>
      simp only [List.cons_append]
      unfold readNumTok
      dsimp only
      by_cases hc : c = '-'
      · rw [if_pos hc, if_pos hc, takeDigits_append ws hd rest]
        dsimp only
        by_cases he : (takeDigits rest).1.isEmpty
        · rw [if_pos he, if_pos he]
          rfl
        · rw [if_neg he, if_neg he]
          rfl
      · rw [if_neg hc, if_neg hc,
          show c :: (rest ++ ws) = (c :: rest) ++ ws from rfl,
          takeDigits_append ws hd (c :: rest)]
        dsimp only
        by_cases he : (takeDigits (c :: rest)).1.isEmpty
        · rw [if_pos he, if_pos he]
          rfl
        · rw [if_neg he, if_neg he]
          rfl

lemma tokenize_append_one (c : Char) (hc : mildChar c) :
    ∀ (n : Nat) (cs : List Char), cs.length ≤ n →
      tokenize (cs ++ [c]) = tokenize cs := by
  have hech : ∀ x : Char, ¬mildChar x → c ≠ x := fun x hx => mildChar_ne hc x hx
  intro n
  induction n with
  | zero =>
      intro cs hlen
      have : cs = [] := List.length_eq_zero.mp (Nat.le_zero.mp hlen)
      subst this
      simp only [List.nil_append]
      rw [tokenize_cons_eq, if_pos (mildChar_isJsonWs hc)]
  | succ n ih =>
      intro cs hlen
      cases cs with
      | nil =>
          simp only [List.nil_append]
          rw [tokenize_cons_eq, if_pos (mildChar_isJsonWs hc)]
      | cons d rest =>
          simp only [List.cons_append]
          rw [tokenize_cons_eq d (rest ++ [c]), tokenize_cons_eq d rest]
          have hrest : rest.length ≤ n := by
            simp at hlen
            omega
          by_cases h1 : isJsonWs d
          · rw [if_pos h1, if_pos h1, ih rest hrest]
          rw [if_neg h1, if_neg h1]
          by_cases h2 : d = '{'
          · rw [if_pos h2, if_pos h2, ih rest hrest]
          rw [if_neg h2, if_neg h2]
          by_cases h3 : d = '}'
          · rw [if_pos h3, if_pos h3, ih rest hrest]
          rw [if_neg h3, if_neg h3]
          by_cases h4 : d = '['
          · rw [if_pos h4, if_pos h4, ih rest hrest]
          rw [if_neg h4, if_neg h4]
          by_cases h5 : d = ']'
          · rw [if_pos h5, if_pos h5, ih rest hrest]
          rw [if_neg h5, if_neg h5]
          by_cases h6 : d = ','
          · rw [if_pos h6, if_pos h6, ih rest hrest]
          rw [if_neg h6, if_neg h6]
          by_cases h7 : d = ':'
          · rw [if_pos h7, if_pos h7, ih rest hrest]
          rw [if_neg h7, if_neg h7]
          by_cases h8 : d = '"'
          · rw [if_pos h8, if_pos h8]
            cases hs : readStringBody rest with
            | none =>
                rw [readStringBody_none_append_one c hc rest.length rest le_rfl hs]
            | some p =>
                obtain ⟨s, r⟩ := p
                rw [readStringBody_some_append [c] rest.length rest le_rfl s r hs]
                dsimp only
                have hrl := readStringBody_length rest.length rest le_rfl s r hs
                rw [ih r (by omega)]
          rw [if_neg h8, if_neg h8]
          by_cases h9 : (d = '-' || d.isDigit) = true
          · rw [if_pos h9, if_pos h9]
            rw [show d :: (rest ++ [c]) = (d :: rest) ++ [c] from rfl,
              readNumTok_append [c]
                (by intro x hx; cases hx with
                    | head => exact mildChar_not_digit hc
                    | tail _ h => cases h)
                (by intro x hx; cases hx with
                    | head => exact hech '-' (by decide)
                    | tail _ h => cases h)
                (d :: rest)]
            cases hn : readNumTok (d :: rest) with
            | none => rfl
            | some p =>
                obtain ⟨nV, r⟩ := p
                simp only [Option.map_some']
                have hrl := readNumTok_length (d :: rest) nV r hn
                simp only [List.length_cons] at hrl
                rw [ih r (by omega)]
          rw [if_neg h9, if_neg h9]
          by_cases h10 : d = 't'
          · rw [if_pos h10, if_pos h10]
            cases rest with
            | nil =>
                simp only [List.nil_append]
            | cons r1 q1 =>
            cases q1 with
            | nil =>
                simp only [List.cons_append, List.nil_append]
            | cons r2 q2 =>
            cases q2 with
            | nil =>
                simp only [List.cons_append, List.nil_append]
                have : (decide (c = 'e')) = false := by
                  have := hech 'e' (by decide)
                  simp [this]
                simp [this]
            | cons r3 r =>
                simp only [List.cons_append]
                by_cases hb : (r1 = 'r' && r2 = 'u' && r3 = 'e') = true
                · rw [if_pos hb, if_pos hb]
                  have hq : r.length ≤ n := by
                    simp at hlen
                    omega
                  rw [ih r hq]
                · rw [if_neg hb, if_neg hb]
          rw [if_neg h10, if_neg h10]
          by_cases h11 : d = 'f'
          · rw [if_pos h11, if_pos h11]
            cases rest with
            | nil =>
                simp only [List.nil_append]
            | cons r1 q1 =>
            cases q1 with
            | nil =>
                simp only [List.cons_append, List.nil_append]
            | cons r2 q2 =>
            cases q2 with
            | nil =>
                simp only [List.cons_append, List.nil_append]
            | cons r3 q3 =>
            cases q3 with
            | nil =>
                simp only [List.cons_append, List.nil_append]
                have : (decide (c = 'e')) = false := by
                  have := hech 'e' (by decide)
                  simp [this]
                simp [this]
            | cons r4 r =>
                simp only [List.cons_append]
                by_cases hb : (r1 = 'a' && r2 = 'l' && r3 = 's' && r4 = 'e') = true
                · rw [if_pos hb, if_pos hb]
                  have hq : r.length ≤ n := by
                    simp at hlen
                    omega
                  rw [ih r hq]
                · rw [if_neg hb, if_neg hb]
          rw [if_neg h11, if_neg h11]
          by_cases h12 : d = 'n'
          · rw [if_pos h12, if_pos h12]
            cases rest with
            | nil =>
                simp only [List.nil_append]
            | cons r1 q1 =>
            cases q1 with
            | nil =>
                simp only [List.cons_append, List.nil_append]
            | cons r2 q2 =>
            cases q2 with
            | nil =>
                simp only [List.cons_append, List.nil_append]
                have : (decide (c = 'l')) = false := by
                  have := hech 'l' (by decide)
                  simp [this]
                simp [this]
            | cons r3 r =>
                simp only [List.cons_append]
                by_cases hb : (r1 = 'u' && r2 = 'l' && r3 = 'l') = true
                · rw [if_pos hb, if_pos hb]
                  have hq : r.length ≤ n := by
                    simp at hlen
                    omega
                  rw [ih r hq]
                · rw [if_neg hb, if_neg hb]
          rw [if_neg h12, if_neg h12]

/-- Appending whitespace (space, tab, newline) never changes tokenization. -/
lemma tokenize_append_mild (ws : List Char) (hws : ∀ c ∈ ws, mildChar c) :
    ∀ cs, tokenize (cs ++ ws) = tokenize cs := by
  induction ws with
  | nil => intro cs; simp
  | cons c ws' ih =>
      intro cs
      rw [show cs ++ c :: ws' = (cs ++ [c]) ++ ws' by simp]
      rw [ih (fun x hx => hws x (List.mem_cons_of_mem c hx)) (cs ++ [c])]
      exact tokenize_append_one c (hws c (List.mem_cons_self c ws'))
        cs.length cs le_rfl

/-- Prepending whitespace never changes tokenization. -/
lemma tokenize_prepend_mild (ws : List Char) (hws : ∀ c ∈ ws, mildChar c)
    (cs : List Char) : tokenize (ws ++ cs) = tokenize cs := by
  induction ws with
  | nil => simp
  | cons c ws' ih =>
      simp only [List.cons_append]
      rw [tokenize_cons_eq,
        if_pos (mildChar_isJsonWs (hws c (List.mem_cons_self c ws')))]
      exact ih fun x hx => hws x (List.mem_cons_of_mem c hx)

/-! ### Line-splitting lemmas -/

lemma nlSplit_ne_nil (cs : List Char) : nlSplit cs ≠ [] := by
  induction cs with
  | nil => simp [nlSplit]
  | cons c rest ih =>
      unfold nlSplit
      by_cases h : c = '\n'
      · simp [h]
      · simp only [if_neg h]
        cases hs : nlSplit rest with
        | nil => exact absurd hs ih
        | cons l ls => simp [consHead]

lemma consHead_cons (c : Char) (l : List Char) (ls : List (List Char)) :
    consHead c (l :: ls) = (c :: l) :: ls := rfl

lemma joinNl_consHead (c : Char) (ls : List (List Char)) :
    joinNl (consHead c ls) = c :: joinNl ls := by
  cases ls with
  | nil => rfl
  | cons l ls2 => cases ls2 <;> rfl

lemma joinNl_nil_cons (ls : List (List Char)) (h : ls ≠ []) :
    joinNl ([] :: ls) = '\n' :: joinNl ls := by
  cases ls with
  | nil => exact absurd rfl h
  | cons l ls2 => rfl

lemma joinNl_nlSplit (cs : List Char) : joinNl (nlSplit cs) = cs := by
  induction cs with
  | nil => rfl
  | cons c rest ih =>
      unfold nlSplit
      by_cases h : c = '\n'
      · rw [if_pos h, joinNl_nil_cons (nlSplit rest) (nlSplit_ne_nil rest), ih, h]
      · rw [if_neg h, joinNl_consHead, ih]

lemma consHead_append (c : Char) (ls ls' : List (List Char)) (h : ls ≠ []) :
    consHead c (ls ++ ls') = consHead c ls ++ ls' := by
  cases ls with
  | nil => exact absurd rfl h
  | cons l t => rfl

lemma nlSplit_cons (c : Char) (rest : List Char) :
    nlSplit (c :: rest) =
      if c = '\n' then [] :: nlSplit rest else consHead c (nlSplit rest) := rfl

lemma nlSplit_append_nl (a b : List Char) :
    nlSplit (a ++ '\n' :: b) = nlSplit a ++ nlSplit b := by
  induction a with
  | nil => simp [nlSplit]
  | cons c a' ih =>
      simp only [List.cons_append]
      rw [nlSplit_cons c (a' ++ '\n' :: b), nlSplit_cons c a']
      by_cases h : c = '\n'
      · rw [if_pos h, if_pos h, ih]
        rfl
      · rw [if_neg h, if_neg h, ih,
          consHead_append c (nlSplit a') (nlSplit b) (nlSplit_ne_nil a')]

lemma nlSplit_no_nl (a : List Char) (h : '\n' ∉ a) : nlSplit a = [a] := by
  induction a with
  | nil => rfl
  | cons c a' ih =>
      rw [nlSplit_cons,
        if_neg (fun he => h (by rw [← he]; exact List.mem_cons_self c a')),
        ih (fun hm => h (List.mem_cons_of_mem c hm))]
      rfl

lemma nlSplit_append_no_nl (a b : List Char) (h : '\n' ∉ a) (l : List Char)
    (ls : List (List Char)) (hb : nlSplit b = l :: ls) :
    nlSplit (a ++ b) = (a ++ l) :: ls := by
  induction a with
  | nil => simpa using hb
  | cons c a' ih =>
      simp only [List.cons_append]
      rw [nlSplit_cons,
        if_neg (fun he => h (by rw [← he]; exact List.mem_cons_self c a')),
        ih (fun hm => h (List.mem_cons_of_mem c hm))]
      rfl

/-! ### Consumed-prefix lemmas: tokens never contain a newline -/

lemma isHex_ne_nl {c : Char} (h : isHex c = true) : c ≠ '\n' := by
  intro he
  subst he
  exact absurd h (by decide)

lemma decodeEsc_ne_nl {e : Char} {ch : Char} (h : decodeEsc e = some ch) :
    e ≠ '\n' := by
  intro he
  subst he
  simp [decodeEsc] at h

lemma readStringBody_split :
    ∀ (n : Nat) (cs : List Char), cs.length ≤ n → ∀ s r,
      readStringBody cs = some (s, r) →
      ∃ pre, cs = pre ++ r ∧ '\n' ∉ pre := by
  intro n
  induction n with
  | zero =>
      intro cs hlen s r hr
      have : cs = [] := List.length_eq_zero.mp (Nat.le_zero.mp hlen)
      subst this
      simp [readStringBody] at hr
  | succ n ih =>
      intro cs hlen s r hr
      cases cs with
      | nil => simp [readStringBody] at hr
      | cons c rest =>
          unfold readStringBody at hr
          by_cases h1 : c = '"'
          · rw [if_pos h1] at hr
            cases hr
            exact ⟨[c], rfl, by simp [h1]⟩
          · rw [if_neg h1] at hr
            by_cases h2 : c = '\\'
            · rw [if_pos h2] at hr
              cases rest with
              | nil => cases hr
              | cons e r2 =>
                  dsimp only at hr
                  by_cases h3 : e = 'u'
                  · rw [if_pos h3] at hr
                    cases r2 with
                    | nil => simp at hr
                    | cons a r2a =>
                    cases r2a with
                    | nil => simp at hr
                    | cons b r2b =>
                    cases r2b with
                    | nil => simp at hr
                    | cons c2 r2c =>
                    cases r2c with
                    | nil => simp at hr
                    | cons d r3 =>
                    dsimp only at hr
                    split at hr
                    · rename_i hhex
                      rcases Option.map_eq_some'.mp hr with ⟨p, hp, hpe⟩
                      have hr3 : r3.length ≤ n := by
                        simp at hlen
                        omega
                      rcases ih r3 hr3 p.1 p.2 (by rw [hp]) with ⟨pre, hpre, hnl⟩
                      cases hpe
                      refine ⟨c :: e :: a :: b :: c2 :: d :: pre, by simp [hpre], ?_⟩
                      simp only [Bool.and_eq_true] at hhex
                      obtain ⟨⟨⟨hha, hhb⟩, hhc⟩, hhd⟩ := hhex
                      intro hm
                      simp only [List.mem_cons] at hm
                      rcases hm with hm | hm | hm | hm | hm | hm | hm
                      · rw [h2] at hm
                        exact absurd hm (by decide)
                      · rw [h3] at hm
                        exact absurd hm (by decide)
                      · exact isHex_ne_nl hha hm.symm
                      · exact isHex_ne_nl hhb hm.symm
                      · exact isHex_ne_nl hhc hm.symm
                      · exact isHex_ne_nl hhd hm.symm
                      · exact hnl hm
                    · cases hr
                  · rw [if_neg h3] at hr
                    cases hde : decodeEsc e with
                    | none => rw [hde] at hr; cases hr
                    | some ch =>
                        rw [hde] at hr
                        rcases Option.map_eq_some'.mp hr with ⟨p, hp, hpe⟩
                        have hr2 : r2.length ≤ n := by
                          simp at hlen
                          omega
                        rcases ih r2 hr2 p.1 p.2 (by rw [hp]) with ⟨pre, hpre, hnl⟩
                        cases hpe
                        refine ⟨c :: e :: pre, by simp [hpre], ?_⟩
                        intro hm
                        simp only [List.mem_cons] at hm
                        rcases hm with hm | hm | hm
                        · rw [h2] at hm
                          exact absurd hm (by decide)
                        · exact decodeEsc_ne_nl hde hm.symm
                        · exact hnl hm
            · rw [if_neg h2] at hr
              by_cases h4 : c.toNat < 32
              · rw [if_pos h4] at hr
                cases hr
              · rw [if_neg h4] at hr
                rcases Option.map_eq_some'.mp hr with ⟨p, hp, hpe⟩
                have hrl : rest.length ≤ n := by
                  simp at hlen
                  omega
                rcases ih rest hrl p.1 p.2 (by rw [hp]) with ⟨pre, hpre, hnl⟩
                cases hpe
                refine ⟨c :: pre, by simp [hpre], ?_⟩
                intro hm
                simp only [List.mem_cons] at hm
                rcases hm with hm | hm
                · rw [← hm] at h4
                  exact h4 (by decide)
                · exact hnl hm

lemma takeDigits_fst_digits (cs : List Char) :
    ∀ d ∈ (takeDigits cs).1, d.isDigit = true := by
  induction cs with
  | nil => simp [takeDigits]
  | cons c rest ih =>
      unfold takeDigits
      by_cases hc : c.isDigit
      · simp only [if_pos hc]
        intro d hd
        rcases List.mem_cons.mp hd with h | h
        · rw [h]; exact hc
        · exact ih d h
      · simp [if_neg hc]

lemma readNumTok_split (c : Char) (rest : List Char) :
    ∀ nV r, readNumTok (c :: rest) = some (nV, r) →
      ∃ pre, rest = pre ++ r ∧ '\n' ∉ pre := by
  intro nV r h
  unfold readNumTok at h
  dsimp only at h
  by_cases hc : c = '-'
  · rw [if_pos hc] at h
    split at h
    · cases h
    · cases h
      refine ⟨(takeDigits rest).1, (takeDigits_append_eq rest).symm, ?_⟩
      intro hm
      have := takeDigits_fst_digits rest '\n' hm
      exact absurd this (by decide)
  · rw [if_neg hc] at h
    split at h
    · cases h
    · rename_i hne
      cases h
      have hap := takeDigits_append_eq (c :: rest)
      cases hfst : (takeDigits (c :: rest)).1 with
      | nil => rw [hfst] at hne; simp at hne
      | cons d pre =>
          rw [hfst] at hap
          have hd : d = c := by
            have : d :: (pre ++ (takeDigits (c :: rest)).2) = c :: rest := by
              simpa using hap
            exact (List.cons.injEq _ _ _ _ ▸ this).1
          refine ⟨pre, ?_, ?_⟩
          · have : d :: (pre ++ (takeDigits (c :: rest)).2) = c :: rest := by
              simpa using hap
            have := (List.cons.injEq _ _ _ _ ▸ this).2
            exact this.symm
          · intro hm
            have := takeDigits_fst_digits (c :: rest) '\n'
              (by rw [hfst]; exact List.mem_cons_of_mem d hm)
            exact absurd this (by decide)

lemma goodLine_nil : goodLine [] := by
  intro c r h
  simp [List.dropWhile] at h

lemma goodLine_ws_cons {c : Char} (l : List Char) (hc : isPyWs c = true) :
    goodLine (c :: l) ↔ goodLine l := by
  unfold goodLine
  rw [List.dropWhile_cons, if_pos hc]

lemma goodLine_head {c : Char} (l : List Char) (hc : isPyWs c = false)
    (h1 : c ≠ '`') (h2 : c ≠ 'j') : goodLine (c :: l) := by
  intro c' r' heq
  rw [List.dropWhile_cons, if_neg (by simp [hc])] at heq
  cases heq
  exact ⟨h1, h2⟩

lemma isJsonWs_isPyWs {c : Char} (h : isJsonWs c = true) : isPyWs c = true := by
  have h2 : ((c = ' ' ∨ c = '\t') ∨ c = '\n') ∨ c = '\r' := by
    simpa [isJsonWs] using h
  rcases h2 with ((h | h) | h) | h <;> subst h <;> decide

lemma digit_bounds {c : Char} (h : c.isDigit = true) :
    48 ≤ c.toNat ∧ c.toNat ≤ 57 := by
  simp [Char.isDigit] at h
  exact ⟨h.1, h.2⟩

lemma isDigit_not_pyws {c : Char} (h : c.isDigit = true) : isPyWs c = false := by
  obtain ⟨h1, h2⟩ := digit_bounds h
  cases hw : isPyWs c
  · rfl
  · exfalso
    simp [isPyWs] at hw
    rcases hw with ((((((((((((((((((h|h)|h)|h)|h)|h)|h)|h)|h)|h)|h)|h)|h)|h)|h)|h)|h)|h)|h)
    all_goals first
      | (obtain ⟨ha, hb⟩ := h; omega)
      | (subst h
         first
           | exact absurd h1 (by decide)
           | exact absurd h2 (by decide))

/-- Every `splitlines` boundary character is also Python whitespace. -/
lemma isLineBreak_isPyWs {c : Char} (h : isLineBreak c = true) :
    isPyWs c = true := by
  simp [isLineBreak] at h
  rcases h with (((((((((h|h)|h)|h)|h)|h)|h)|h)|h)|h)
  all_goals subst h
  all_goals decide

lemma numStart_props {c : Char} (h : (c = '-' || c.isDigit) = true) :
    isPyWs c = false ∧ c ≠ '`' ∧ c ≠ 'j' := by
  have h0 : c = '-' ∨ c.isDigit = true := by simpa using h
  rcases h0 with h' | h'
  · subst h'
    exact ⟨by decide, by decide, by decide⟩
  · refine ⟨isDigit_not_pyws h', ?_, ?_⟩
    · intro he; subst he; exact absurd h' (by decide)
    · intro he; subst he; exact absurd h' (by decide)

/-- Helper for the good-lines induction: a token's consumed prefix `a`
(newline-free, with a good head character) prepended to a suffix whose lines
are all good yields only good lines. -/
lemma lines_good_extend (a r' : List Char) (c : Char) (t : List Char)
    (ha : a = c :: t) (hnl : '\n' ∉ a) (hws : isPyWs c = false)
    (h1 : c ≠ '`') (h2 : c ≠ 'j')
    (hr : ∀ l ∈ nlSplit r', goodLine l) :
    ∀ l ∈ nlSplit (a ++ r'), goodLine l := by
  cases hs : nlSplit r' with
  | nil => exact absurd hs (nlSplit_ne_nil r')
  | cons l0 ls =>
      rw [nlSplit_append_no_nl a r' hnl l0 ls hs]
      intro l hl
      rcases List.mem_cons.mp hl with h | h
      · subst h
        rw [ha, List.cons_append]
        exact goodLine_head _ hws h1 h2
      · exact hr l (hs ▸ List.mem_cons_of_mem l0 h)

/-- Every line of a successfully tokenized text is good: each token starts
with a character other than a backtick or `j`, tokens contain no raw newline,
and whitespace cannot change a line's first non-whitespace character. -/
lemma tokenize_lines_good :
    ∀ (n : Nat) (cs : List Char), cs.length ≤ n → ∀ toks,
      tokenize cs = some toks → ∀ l ∈ nlSplit cs, goodLine l := by
  intro n
  induction n with
  | zero =>
      intro cs hlen toks _ l hl
      have : cs = [] := List.length_eq_zero.mp (Nat.le_zero.mp hlen)
      subst this
      simp [nlSplit] at hl
      subst hl
      exact goodLine_nil
  | succ n ih =>
      intro cs hlen toks hr l hl
      cases cs with
      | nil =>
          simp [nlSplit] at hl
          subst hl
          exact goodLine_nil
      | cons c rest =>
          have hrest : rest.length ≤ n := by
            simp at hlen
            omega
          rw [tokenize_cons_eq] at hr
          by_cases h1 : isJsonWs c
          · rw [if_pos h1] at hr
            by_cases hnlc : c = '\n'
            · subst hnlc
              rw [nlSplit_cons, if_pos rfl] at hl
              rcases List.mem_cons.mp hl with h | h
              · subst h; exact goodLine_nil
              · exact ih rest hrest toks hr l h
            · rw [nlSplit_cons, if_neg hnlc] at hl
              cases hs : nlSplit rest with
              | nil => exact absurd hs (nlSplit_ne_nil rest)
              | cons l0 ls =>
                  rw [hs, consHead_cons] at hl
                  rcases List.mem_cons.mp hl with h | h
                  · subst h
                    exact (goodLine_ws_cons l0 (isJsonWs_isPyWs h1)).mpr
                      (ih rest hrest toks hr l0 (hs ▸ List.mem_cons_self l0 ls))
                  · exact ih rest hrest toks hr l (hs ▸ List.mem_cons_of_mem l0 h)
          · rw [if_neg h1] at hr
            by_cases h2 : c = '{'
            · rw [if_pos h2] at hr
              rcases Option.map_eq_some'.mp hr with ⟨toks', hr', _⟩
              subst h2
              exact lines_good_extend ['{'] rest '{' [] rfl (by decide) (by decide)
                (by decide) (by decide) (fun l0 hl0 => ih rest hrest toks' hr' l0 hl0) l hl
            rw [if_neg h2] at hr
            by_cases h3 : c = '}'
            · rw [if_pos h3] at hr
              rcases Option.map_eq_some'.mp hr with ⟨toks', hr', _⟩
              subst h3
              exact lines_good_extend ['}'] rest '}' [] rfl (by decide) (by decide)
                (by decide) (by decide) (fun l0 hl0 => ih rest hrest toks' hr' l0 hl0) l hl
            rw [if_neg h3] at hr
            by_cases h4 : c = '['
            · rw [if_pos h4] at hr
              rcases Option.map_eq_some'.mp hr with ⟨toks', hr', _⟩
              subst h4
              exact lines_good_extend ['['] rest '[' [] rfl (by decide) (by decide)
                (by decide) (by decide) (fun l0 hl0 => ih rest hrest toks' hr' l0 hl0) l hl
            rw [if_neg h4] at hr
            by_cases h5 : c = ']'
            · rw [if_pos h5] at hr
              rcases Option.map_eq_some'.mp hr with ⟨toks', hr', _⟩
              subst h5
              exact lines_good_extend [']'] rest ']' [] rfl (by decide) (by decide)
                (by decide) (by decide) (fun l0 hl0 => ih rest hrest toks' hr' l0 hl0) l hl
            rw [if_neg h5] at hr
            by_cases h6 : c = ','
            · rw [if_pos h6] at hr
              rcases Option.map_eq_some'.mp hr with ⟨toks', hr', _⟩
              subst h6
              exact lines_good_extend [','] rest ',' [] rfl (by decide) (by decide)
                (by decide) (by decide) (fun l0 hl0 => ih rest hrest toks' hr' l0 hl0) l hl
            rw [if_neg h6] at hr
            by_cases h7 : c = ':'
            · rw [if_pos h7] at hr
              rcases Option.map_eq_some'.mp hr with ⟨toks', hr', _⟩
              subst h7
              exact lines_good_extend [':'] rest ':' [] rfl (by decide) (by decide)
                (by decide) (by decide) (fun l0 hl0 => ih rest hrest toks' hr' l0 hl0) l hl
            rw [if_neg h7] at hr
            by_cases h8 : c = '"'
            · rw [if_pos h8] at hr
              cases hsb : readStringBody rest with
              | none => rw [hsb] at hr; cases hr
              | some p =>
                  obtain ⟨s, r⟩ := p
                  rw [hsb] at hr
                  dsimp only at hr
                  rcases Option.map_eq_some'.mp hr with ⟨toks', hr', _⟩
                  rcases readStringBody_split rest.length rest le_rfl s r hsb with
                    ⟨pre, hpre, hprenl⟩
                  subst h8
                  have hcs : ('"' :: rest : List Char) = ('"' :: pre) ++ r := by
                    rw [hpre]; rfl
                  rw [hcs] at hl
                  have hrl := readStringBody_length rest.length rest le_rfl s r hsb
                  exact lines_good_extend ('"' :: pre) r '"' pre rfl
                    (by intro hm; rcases List.mem_cons.mp hm with h | h
                        · exact absurd h (by decide)
                        · exact hprenl h)
                    (by decide) (by decide) (by decide)
                    (fun l0 hl0 => ih r (by omega) toks' hr' l0 hl0) l hl
            rw [if_neg h8] at hr
            by_cases h9 : (c = '-' || c.isDigit) = true
            · rw [if_pos h9] at hr
              cases hnt : readNumTok (c :: rest) with
              | none => rw [hnt] at hr; cases hr
              | some p =>
                  obtain ⟨nV, r⟩ := p
                  rw [hnt] at hr
                  dsimp only at hr
                  rcases Option.map_eq_some'.mp hr with ⟨toks', hr', _⟩
                  rcases readNumTok_split c rest nV r hnt with ⟨pre, hpre, hprenl⟩
                  obtain ⟨hws9, hbt9, hj9⟩ := numStart_props h9
                  have hcs : (c :: rest : List Char) = (c :: pre) ++ r := by
                    rw [hpre]; rfl
                  rw [hcs] at hl
                  have hrl := readNumTok_length (c :: rest) nV r hnt
                  simp only [List.length_cons] at hrl
                  have hprednl : '\n' ∉ c :: pre := by
                    intro hm
                    rcases List.mem_cons.mp hm with h | h
                    · rw [← h] at hws9
                      exact absurd hws9 (by decide)
                    · exact hprenl h
                  exact lines_good_extend (c :: pre) r c pre rfl hprednl
                    hws9 hbt9 hj9
                    (fun l0 hl0 => ih r (by omega) toks' hr' l0 hl0) l hl
            rw [if_neg h9] at hr
            by_cases h10 : c = 't'
            · rw [if_pos h10] at hr
              cases rest with
              | nil => cases hr
              | cons r1 q1 =>
              cases q1 with
              | nil => cases hr
              | cons r2 q2 =>
              cases q2 with
              | nil => cases hr
              | cons r3 r =>
                  dsimp only at hr
                  split at hr
                  · rename_i hb
                    rcases Option.map_eq_some'.mp hr with ⟨toks', hr', _⟩
                    simp only [Bool.and_eq_true] at hb
                    obtain ⟨⟨hb1, hb2⟩, hb3⟩ := hb
                    have hb1' : r1 = 'r' := by simpa using hb1
                    have hb2' : r2 = 'u' := by simpa using hb2
                    have hb3' : r3 = 'e' := by simpa using hb3
                    subst h10 hb1' hb2' hb3'
                    have hq : r.length ≤ n := by
                      simp at hlen
                      omega
                    exact lines_good_extend ['t', 'r', 'u', 'e'] r 't' ['r', 'u', 'e']
                      rfl (by decide) (by decide) (by decide) (by decide)
                      (fun l0 hl0 => ih r hq toks' hr' l0 hl0) l hl
                  · cases hr
            rw [if_neg h10] at hr
            by_cases h11 : c = 'f'
            · rw [if_pos h11] at hr
              cases rest with
              | nil => cases hr
              | cons r1 q1 =>
              cases q1 with
              | nil => cases hr
              | cons r2 q2 =>
              cases q2 with
              | nil => cases hr
              | cons r3 q3 =>
              cases q3 with
              | nil => cases hr
              | cons r4 r =>
                  dsimp only at hr
                  split at hr
                  · rename_i hb
                    rcases Option.map_eq_some'.mp hr with ⟨toks', hr', _⟩
                    simp only [Bool.and_eq_true] at hb
                    obtain ⟨⟨⟨hb1, hb2⟩, hb3⟩, hb4⟩ := hb
                    have hb1' : r1 = 'a' := by simpa using hb1
                    have hb2' : r2 = 'l' := by simpa using hb2
                    have hb3' : r3 = 's' := by simpa using hb3
                    have hb4' : r4 = 'e' := by simpa using hb4
                    subst h11 hb1' hb2' hb3' hb4'
                    have hq : r.length ≤ n := by
                      simp at hlen
                      omega
                    exact lines_good_extend ['f', 'a', 'l', 's', 'e'] r 'f'
                      ['a', 'l', 's', 'e'] rfl (by decide) (by decide) (by decide)
                      (by decide) (fun l0 hl0 => ih r hq toks' hr' l0 hl0) l hl
                  · cases hr
            rw [if_neg h11] at hr
            by_cases h12 : c = 'n'
            · rw [if_pos h12] at hr
              cases rest with
              | nil => cases hr
              | cons r1 q1 =>
              cases q1 with
              | nil => cases hr
              | cons r2 q2 =>
              cases q2 with
              | nil => cases hr
              | cons r3 r =>
                  dsimp only at hr
                  split at hr
                  · rename_i hb
                    rcases Option.map_eq_some'.mp hr with ⟨toks', hr', _⟩
                    simp only [Bool.and_eq_true] at hb
                    obtain ⟨⟨hb1, hb2⟩, hb3⟩ := hb
                    have hb1' : r1 = 'u' := by simpa using hb1
                    have hb2' : r2 = 'l' := by simpa using hb2
                    have hb3' : r3 = 'l' := by simpa using hb3
                    subst h12 hb1' hb2' hb3'
                    have hq : r.length ≤ n := by
                      simp at hlen
                      omega
                    exact lines_good_extend ['n', 'u', 'l', 'l'] r 'n' ['u', 'l', 'l']
                      rfl (by decide) (by decide) (by decide) (by decide)
                      (fun l0 hl0 => ih r hq toks' hr' l0 hl0) l hl
                  · cases hr
            rw [if_neg h12] at hr
            cases hr

/-! ### Strip and fence-filter lemmas -/

lemma dropWhile_cons_head {p : Char → Bool} :
    ∀ (l : List Char) (c : Char) (r : List Char),
      l.dropWhile p = c :: r → p c = false := by
  intro l
  induction l with
  | nil => intro c r h; simp [List.dropWhile] at h
  | cons d t ih =>
      intro c r h
      rw [List.dropWhile_cons] at h
      by_cases hd : p d
      · rw [if_pos hd] at h
        exact ih c r h
      · rw [if_neg hd] at h
        cases h
        simpa using hd

lemma dropWhile_all_false {p : Char → Bool} (xs : List Char)
    (h : ∀ c ∈ xs, p c = false) : xs.dropWhile p = xs := by
  cases xs with
  | nil => rfl
  | cons c t =>
      rw [List.dropWhile_cons, if_neg (by simp [h c (List.mem_cons_self c t)])]

lemma dropWhile_append_single {p : Char → Bool} (xs : List Char) (c : Char)
    (hc : p c = false) : ∃ ys, (xs ++ [c]).dropWhile p = ys ++ [c] := by
  induction xs with
  | nil => exact ⟨[], by simp [List.dropWhile, hc]⟩
  | cons x xs' ih =>
      rw [List.cons_append, List.dropWhile_cons]
      by_cases hx : p x
      · simpa [hx] using ih
      · exact ⟨x :: xs', by simp [hx]⟩

lemma stripChars_head (l : List Char) (c : Char) (r : List Char)
    (h : l.dropWhile isPyWs = c :: r) : ∃ r', stripChars l = c :: r' := by
  unfold stripChars
  rw [h]
  have hc : isPyWs c = false := dropWhile_cons_head l c r h
  rw [List.reverse_cons]
  obtain ⟨ys, hys⟩ := dropWhile_append_single r.reverse c hc
  rw [hys, List.reverse_append]
  exact ⟨ys.reverse, by simp⟩

lemma stripChars_all_nonws (l : List Char) (h : ∀ c ∈ l, isPyWs c = false) :
    stripChars l = l := by
  unfold stripChars
  rw [dropWhile_all_false l h,
    dropWhile_all_false l.reverse (fun c hc => h c (List.mem_reverse.mp hc)),
    List.reverse_reverse]

lemma stripChars_ws_cons (c : Char) (l : List Char) (h : isPyWs c = true) :
    stripChars (c :: l) = stripChars l := by
  unfold stripChars
  rw [List.dropWhile_cons, if_pos h]

lemma stripChars_ws_snoc (l : List Char) (c : Char) (h : isPyWs c = true) :
    stripChars (l ++ [c]) = stripChars l := by
  unfold stripChars
  rw [List.dropWhile_append]
  by_cases he : (l.dropWhile isPyWs).isEmpty
  · rw [if_pos he]
    have h1 : List.dropWhile isPyWs [c] = [] := by
      simp [List.dropWhile, h]
    have h2 : l.dropWhile isPyWs = [] := by
      cases hx : l.dropWhile isPyWs with
      | nil => rfl
      | cons a b => rw [hx] at he; simp at he
    rw [h1, h2]
  · rw [if_neg he]
    rw [List.reverse_append]
    have h1 : List.reverse [c] = [c] := rfl
    rw [h1, show ([c] : List Char) ++ (l.dropWhile isPyWs).reverse =
      c :: (l.dropWhile isPyWs).reverse from rfl,
      List.dropWhile_cons, if_pos h]

lemma fenceKeep_nil : fenceKeep ([] : List Char) = true := rfl

lemma fenceKeep_ws_cons (c : Char) (l : List Char) (h : isPyWs c = true) :
    fenceKeep (c :: l) = fenceKeep l := by
  unfold fenceKeep stripStarts
  rw [stripChars_ws_cons c l h]

lemma fenceKeep_ws_snoc (l : List Char) (c : Char) (h : isPyWs c = true) :
    fenceKeep (l ++ [c]) = fenceKeep l := by
  unfold fenceKeep stripStarts
  rw [stripChars_ws_snoc l c h]

lemma fenceKeep_of_goodLine (l : List Char) (h : goodLine l) :
    fenceKeep l = true := by
  unfold fenceKeep stripStarts
  cases hd : l.dropWhile isPyWs with
  | nil =>
      have hs : stripChars l = [] := by
        unfold stripChars
        rw [hd]
        rfl
      rw [hs]
      rfl
  | cons c r =>
      obtain ⟨h1, h2⟩ := h c r hd
      obtain ⟨r', hr'⟩ := stripChars_head l c r hd
      rw [hr']
      have hb1 : (('`' : Char) == c) = false := by
        simp
        exact fun he => h1 he.symm
      have hb2 : (('j' : Char) == c) = false := by
        simp
        exact fun he => h2 he.symm
      simp [List.isPrefixOf, hb1, hb2]

lemma mildChar_isPyWs {c : Char} (hc : mildChar c) : isPyWs c = true := by
  rcases hc with h | h | h <;> subst h <;> decide

lemma joinNl_cons_extend (c : Char) (l0 : List Char) (X : List (List Char)) :
    joinNl ((c :: l0) :: X) = c :: joinNl (l0 :: X) := by
  cases X <;> rfl

lemma joinNl_append_single (xs : List (List Char)) (l : List Char) (h : xs ≠ []) :
    joinNl (xs ++ [l]) = joinNl xs ++ '\n' :: l := by
  induction xs with
  | nil => exact absurd rfl h
  | cons x xs' ih =>
      cases hx : xs' with
      | nil => rfl
      | cons y ys =>
          subst hx
          rw [show (x :: y :: ys) ++ [l] = x :: ((y :: ys) ++ [l]) from rfl,
            show joinNl (x :: ((y :: ys) ++ [l])) =
              x ++ '\n' :: joinNl ((y :: ys) ++ [l]) from rfl,
            ih (by simp),
            show joinNl (x :: y :: ys) = x ++ '\n' :: joinNl (y :: ys) from rfl]
          simp

/-! ### The join-filter loops: whitespace padding does not affect the
tokenization of the fence-cleaned text -/

lemma tokJoin_prepend :
    ∀ (w u : List Char), (∀ c ∈ w, mildChar c) →
      tokenize (joinNl ((nlSplit (w ++ u)).filter fenceKeep)) =
      tokenize (joinNl ((nlSplit u).filter fenceKeep)) := by
  intro w
  induction w with
  | nil => intro u _; rfl
  | cons c w' ih =>
      intro u hm
      have hc : mildChar c := hm c (List.mem_cons_self c w')
      have hm' : ∀ x ∈ w', mildChar x := fun x hx => hm x (List.mem_cons_of_mem c hx)
      have ihh := ih u hm'
      rw [List.cons_append]
      by_cases hnl : c = '\n'
      · subst hnl
        rw [nlSplit_cons, if_pos rfl, List.filter_cons, if_pos (by rw [fenceKeep_nil])]
        cases hF : (nlSplit (w' ++ u)).filter fenceKeep with
        | nil =>
            rw [hF] at ihh
            exact ihh
        | cons l0 ls =>
            rw [joinNl_nil_cons _ (by simp), tokenize_cons_eq,
              if_pos (by decide : isJsonWs '\n' = true)]
            rw [hF] at ihh
            exact ihh
      · rw [nlSplit_cons, if_neg hnl]
        cases hs : nlSplit (w' ++ u) with
        | nil => exact absurd hs (nlSplit_ne_nil (w' ++ u))
        | cons l0 ls =>
            rw [hs, List.filter_cons] at ihh
            rw [consHead_cons, List.filter_cons,
              fenceKeep_ws_cons c l0 (mildChar_isPyWs hc)]
            by_cases hk : fenceKeep l0 = true
            · rw [if_pos hk] at ihh ⊢
              rw [joinNl_cons_extend, tokenize_cons_eq,
                if_pos (mildChar_isJsonWs hc)]
              exact ihh
            · rw [if_neg hk] at ihh ⊢
              exact ihh

lemma nlSplit_snoc_no_nl (u : List Char) (c : Char) (hc : c ≠ '\n') :
    ∃ ls' l, nlSplit u = ls' ++ [l] ∧ nlSplit (u ++ [c]) = ls' ++ [l ++ [c]] := by
  induction u with
  | nil => exact ⟨[], [], rfl, by simp [nlSplit, hc, consHead]⟩
  | cons d u' ih =>
      rcases ih with ⟨ls', l, h1, h2⟩
      by_cases hd : d = '\n'
      · refine ⟨[] :: ls', l, ?_, ?_⟩
        · rw [nlSplit_cons, if_pos hd, h1]
          rfl
        · rw [List.cons_append, nlSplit_cons, if_pos hd, h2]
          rfl
      · cases hls : ls' with
        | nil =>
            rw [hls] at h1 h2
            refine ⟨[], d :: l, ?_, ?_⟩
            · rw [nlSplit_cons, if_neg hd, h1]
              rfl
            · rw [List.cons_append, nlSplit_cons, if_neg hd, h2]
              rfl
        | cons x xs =>
            rw [hls] at h1 h2
            refine ⟨(d :: x) :: xs, l, ?_, ?_⟩
            · rw [nlSplit_cons, if_neg hd, h1]
              rfl
            · rw [List.cons_append, nlSplit_cons, if_neg hd, h2]
              rfl

lemma tokJoin_snoc (u : List Char) (c : Char) (hc : mildChar c) :
    tokenize (joinNl ((nlSplit (u ++ [c])).filter fenceKeep)) =
    tokenize (joinNl ((nlSplit u).filter fenceKeep)) := by
  by_cases hnl : c = '\n'
  · subst hnl
    rw [show u ++ ['\n'] = u ++ '\n' :: [] from rfl, nlSplit_append_nl,
      List.filter_append]
    rw [show nlSplit ([] : List Char) = [[]] from rfl]
    rw [show ([[]] : List (List Char)).filter fenceKeep = [[]] from rfl]
    cases hX : (nlSplit u).filter fenceKeep with
    | nil => rfl
    | cons l0 ls =>
        rw [joinNl_append_single (l0 :: ls) [] (by simp),
          show joinNl (l0 :: ls) ++ '\n' :: [] = joinNl (l0 :: ls) ++ ['\n'] from rfl]
        exact tokenize_append_one '\n' (Or.inr (Or.inr rfl))
          (joinNl (l0 :: ls)).length (joinNl (l0 :: ls)) le_rfl
  · rcases nlSplit_snoc_no_nl u c hnl with ⟨ls', l, h1, h2⟩
    rw [h1, h2, List.filter_append, List.filter_append, List.filter_cons,
      List.filter_cons, List.filter_nil, fenceKeep_ws_snoc l c (mildChar_isPyWs hc)]
    by_cases hk : fenceKeep l = true
    · rw [if_pos hk, if_pos hk]
      cases hX : ls'.filter fenceKeep with
      | nil =>
          simp only [List.nil_append]
          rw [show joinNl [l ++ [c]] = l ++ [c] from rfl,
            show joinNl [l] = l from rfl]
          exact tokenize_append_one c hc l.length l le_rfl
      | cons x xs =>
          rw [joinNl_append_single (x :: xs) (l ++ [c]) (by simp),
            joinNl_append_single (x :: xs) l (by simp)]
          rw [show joinNl (x :: xs) ++ '\n' :: (l ++ [c]) =
            (joinNl (x :: xs) ++ '\n' :: l) ++ [c] by simp]
          exact tokenize_append_one c hc _ _ le_rfl
    · rw [if_neg hk, if_neg hk]

lemma tokJoin_append :
    ∀ (w u : List Char), (∀ c ∈ w, mildChar c) →
      tokenize (joinNl ((nlSplit (u ++ w)).filter fenceKeep)) =
      tokenize (joinNl ((nlSplit u).filter fenceKeep)) := by
  intro w
  induction w with
  | nil => intro u _; rw [List.append_nil]
  | cons c w' ih =>
      intro u hm
      rw [show u ++ c :: w' = (u ++ [c]) ++ w' by simp]
      rw [ih (u ++ [c]) (fun x hx => hm x (List.mem_cons_of_mem c hx))]
      exact tokJoin_snoc u c (hm c (List.mem_cons_self c w'))

/-! ### Decomposition of `strip` and the splitlines conversion -/

lemma stripChars_decomp (cs : List Char) :
    ∃ w1 w2, cs = w1 ++ stripChars cs ++ w2 ∧
      (∀ c ∈ w1, isPyWs c = true) ∧ (∀ c ∈ w2, isPyWs c = true) := by
  refine ⟨cs.takeWhile isPyWs,
    ((cs.dropWhile isPyWs).reverse.takeWhile isPyWs).reverse, ?_, ?_, ?_⟩
  · conv_lhs => rw [← List.takeWhile_append_dropWhile isPyWs cs]
    rw [List.append_assoc]
    congr 1
    conv_lhs => rw [← List.reverse_reverse (cs.dropWhile isPyWs),
      ← List.takeWhile_append_dropWhile isPyWs (cs.dropWhile isPyWs).reverse]
    rw [List.reverse_append]
    rfl
  · intro c hc
    exact List.mem_takeWhile_imp hc
  · intro c hc
    rw [List.mem_reverse] at hc
    exact List.mem_takeWhile_imp hc

lemma linesRaw_cons_not_cr (c : Char) (rest : List Char) (hc : c ≠ '\r') :
    linesRaw (c :: rest) =
      if isLineBreak c then [] :: linesRaw rest
      else consHead c (linesRaw rest) := by
  conv_lhs => unfold linesRaw
  rw [if_neg hc]

/-- When the only line boundary present is `'\n'`, Python `splitlines`
raw splitting agrees with plain newline splitting. -/
lemma linesRaw_eq_nlSplit (cs : List Char)
    (h : ∀ c ∈ cs, isLineBreak c = true → c = '\n') :
    linesRaw cs = nlSplit cs := by
  induction cs with
  | nil => rfl
  | cons c rest ih =>
      have hcr : c ≠ '\r' := by
        intro he
        subst he
        exact absurd (h '\r' (List.mem_cons_self _ _) (by decide)) (by decide)
      rw [linesRaw_cons_not_cr c rest hcr, nlSplit_cons]
      by_cases hb : isLineBreak c = true
      · have hcn : c = '\n' := h c (List.mem_cons_self _ _) hb
        rw [if_pos hb, if_pos hcn,
          ih (fun x hx hbx => h x (List.mem_cons_of_mem c hx) hbx)]
      · have hcn : c ≠ '\n' := by
          intro he
          subst he
          exact hb (by decide)
        rw [if_neg hb, if_neg hcn,
          ih (fun x hx hbx => h x (List.mem_cons_of_mem c hx) hbx)]

/-- Replacing Python `splitlines` by plain newline splitting changes the
fence-cleaned join by at most a trailing newline, hence not its tokens. -/
lemma tokJoin_pySplit (m : List Char)
    (h : ∀ c ∈ m, isLineBreak c = true → c = '\n') :
    tokenize (joinNl ((pySplitlines m).filter fenceKeep)) =
    tokenize (joinNl ((nlSplit m).filter fenceKeep)) := by
  unfold pySplitlines
  rw [linesRaw_eq_nlSplit m h]
  by_cases hlast : (nlSplit m).getLast? = some []
  · rw [if_pos hlast]
    have hne := nlSplit_ne_nil m
    have hdec : nlSplit m = (nlSplit m).dropLast ++ [[]] := by
      conv_lhs => rw [← List.dropLast_append_getLast hne]
      rw [List.getLast_eq_iff_getLast?_eq_some hne |>.mpr hlast]
    conv_rhs => rw [hdec]
    rw [List.filter_append,
      show ([[]] : List (List Char)).filter fenceKeep = [[]] from rfl]
    cases hX : (nlSplit m).dropLast.filter fenceKeep with
    | nil => rfl
    | cons l0 ls =>
        rw [joinNl_append_single (l0 :: ls) [] (by simp),
          show joinNl (l0 :: ls) ++ '\n' :: [] = joinNl (l0 :: ls) ++ ['\n'] from rfl,
          tokenize_append_one '\n' (Or.inr (Or.inr rfl)) _ _ le_rfl]
  · rw [if_neg hlast]

/-- Tokenization determines the result of `json.loads`. -/
lemma jsonLoads_congr (a b : List Char) (h : tokenize a = tokenize b) :
    jsonLoads a = jsonLoads b := by
  unfold jsonLoads
  rw [h]

lemma fenceKeep_fence (tag : List Char) (htag : ∀ c ∈ tag, isPyWs c = false) :
    fenceKeep ('`' :: '`' :: '`' :: tag) = false := by
  unfold fenceKeep stripStarts
  rw [stripChars_all_nonws _ (by
    intro c hc
    rcases List.mem_cons.mp hc with h | hc
    · subst h; decide
    rcases List.mem_cons.mp hc with h | hc
    · subst h; decide
    rcases List.mem_cons.mp hc with h | hc
    · subst h; decide
    · exact htag c hc)]
  simp [List.isPrefixOf]

lemma stripChars_eq_self_concat (c0 : Char) (mid : List Char) (cL : Char)
    (h0 : isPyWs c0 = false) (hL : isPyWs cL = false) :
    stripChars (c0 :: (mid ++ [cL])) = c0 :: (mid ++ [cL]) := by
  unfold stripChars
  rw [List.dropWhile_cons, if_neg (by simp [h0]), List.reverse_cons,
    List.reverse_append,
    show ([cL] : List Char).reverse = [cL] from rfl,
    show ([cL] : List Char) ++ mid.reverse ++ [c0] =
      cL :: (mid.reverse ++ [c0]) from rfl,
    List.dropWhile_cons, if_neg (by simp [hL])]
  simp

lemma wrapFence_strip (tagT tagB t : List Char)
    (_htT : ∀ c ∈ tagT, isPyWs c = false) (htB : ∀ c ∈ tagB, isPyWs c = false) :
    stripChars (wrapFence tagT tagB t) = wrapFence tagT tagB t := by
  rcases List.eq_nil_or_concat tagB with hB | ⟨L, b, hB⟩
  · subst hB
    have hw : wrapFence tagT [] t =
        '`' :: (('`' :: '`' :: tagT ++ '\n' :: t ++ ['\n', '`', '`']) ++ ['`']) := by
      simp [wrapFence]
    rw [hw, stripChars_eq_self_concat _ _ _ (by decide) (by decide)]
  · rw [List.concat_eq_append] at hB
    subst hB
    have hlb : isPyWs b = false := htB b (by simp)
    have hw : wrapFence tagT (L ++ [b]) t =
        '`' :: (('`' :: '`' :: tagT ++ '\n' :: t ++ '\n' :: '`' :: '`' :: '`' :: L)
          ++ [b]) := by
      simp [wrapFence]
    rw [hw, stripChars_eq_self_concat _ _ _ (by decide) hlb]

/-- C8 (amended): for every raw text that reconciles to `Ok(v)` and whose
Python-whitespace characters are all plain space, tab or newline (this
excludes both exotic `splitlines` boundaries such as U+2028 — every
boundary character is Python whitespace — and exotic strippable whitespace
such as NBSP, which `str.strip()` removes from the unwrapped text but which
survives inside a wrapped line where the JSON scanner rejects it; the
counterexample shows both failure modes), wrapping the text in one
code-fence line at the top and one at the bottom, each fence optionally
followed by a whitespace-free language tag, strips the fence lines and
recovers the same `Ok(v)`. -/
theorem parse_selection_fence_wrap (t tagT tagB : List Char) (v : Selection)
    (htT : ∀ c ∈ tagT, isPyWs c = false ∧ isLineBreak c = false)
    (htB : ∀ c ∈ tagB, isPyWs c = false ∧ isLineBreak c = false)
    (hws : ∀ c ∈ t, isPyWs c = true → mildChar c)
    (hok : parseSelectionChars t = some v) :
    parseSelectionChars (wrapFence tagT tagB t) = some v := by
  have htT1 : ∀ c ∈ tagT, isPyWs c = false := fun c hc => (htT c hc).1
  have htB1 : ∀ c ∈ tagB, isPyWs c = false := fun c hc => (htB c hc).1
  have ht : ∀ c ∈ t, isLineBreak c = true → c = '\n' := by
    intro c hc hb
    rcases hws c hc (isLineBreak_isPyWs hb) with h | h | h
    · subst h; exact absurd hb (by decide)
    · subst h; exact absurd hb (by decide)
    · exact h
  have htTnl : '\n' ∉ tagT := fun hm => by
    have := (htT '\n' hm).2
    simp [isLineBreak] at this
  have htBnl : '\n' ∉ tagB := fun hm => by
    have := (htB '\n' hm).2
    simp [isLineBreak] at this
  -- exotic-boundary freedom of the wrapped text
  have hwex : ∀ c ∈ wrapFence tagT tagB t, isLineBreak c = true → c = '\n' := by
    intro c hc hb
    unfold wrapFence at hc
    rcases List.mem_append.mp hc with hc | hc
    · rcases List.mem_append.mp hc with hc | hc
      · rcases List.mem_cons.mp hc with h | hc
        · subst h; exact absurd hb (by decide)
        rcases List.mem_cons.mp hc with h | hc
        · subst h; exact absurd hb (by decide)
        rcases List.mem_cons.mp hc with h | hc
        · subst h; exact absurd hb (by decide)
        · simp [(htT c hc).2] at hb
      · rcases List.mem_cons.mp hc with h | hc
        · exact h
        · exact ht c hc hb
    · rcases List.mem_cons.mp hc with h | hc
      · exact h
      rcases List.mem_cons.mp hc with h | hc
      · subst h; exact absurd hb (by decide)
      rcases List.mem_cons.mp hc with h | hc
      · subst h; exact absurd hb (by decide)
      rcases List.mem_cons.mp hc with h | hc
      · subst h; exact absurd hb (by decide)
      · simp [(htB c hc).2] at hb
  -- the wrapped text is fenced, so fenceClean filters its split lines
  have hwpre : (['`', '`', '`'] : List Char).isPrefixOf
      (stripChars (wrapFence tagT tagB t)) = true := by
    rw [wrapFence_strip tagT tagB t htT1 htB1]
    simp [wrapFence, List.isPrefixOf]
  have hclean_w : fenceClean (wrapFence tagT tagB t) =
      joinNl (((pySplitlines (stripChars (wrapFence tagT tagB t))).filter
        fenceKeep)) := by
    unfold fenceClean
    rw [if_pos hwpre]
  -- split of the wrapped text
  have hsplit : nlSplit (wrapFence tagT tagB t) =
      [('`' :: '`' :: '`' :: tagT)] ++ nlSplit t ++
        [('`' :: '`' :: '`' :: tagB)] := by
    unfold wrapFence
    rw [nlSplit_append_nl, nlSplit_append_nl,
      nlSplit_no_nl ('`' :: '`' :: '`' :: tagT) (by
        intro hm
        rcases List.mem_cons.mp hm with h | hm
        · exact absurd h (by decide)
        rcases List.mem_cons.mp hm with h | hm
        · exact absurd h (by decide)
        rcases List.mem_cons.mp hm with h | hm
        · exact absurd h (by decide)
        · exact htTnl hm),
      nlSplit_no_nl ('`' :: '`' :: '`' :: tagB) (by
        intro hm
        rcases List.mem_cons.mp hm with h | hm
        · exact absurd h (by decide)
        rcases List.mem_cons.mp hm with h | hm
        · exact absurd h (by decide)
        rcases List.mem_cons.mp hm with h | hm
        · exact absurd h (by decide)
        · exact htBnl hm)]
  have hfilter : (nlSplit (wrapFence tagT tagB t)).filter fenceKeep =
      (nlSplit t).filter fenceKeep := by
    rw [hsplit, List.filter_append, List.filter_append, List.filter_cons,
      List.filter_cons, fenceKeep_fence tagT htT1, fenceKeep_fence tagB htB1]
    simp
  -- strip decomposition of the plain text
  obtain ⟨w1, w2, hdec, hw1, hw2⟩ := stripChars_decomp t
  have hw1m : ∀ c ∈ w1, mildChar c := by
    intro c hc
    exact hws c (by rw [hdec]; exact List.mem_append.mpr (Or.inl
      (List.mem_append.mpr (Or.inl hc)))) (hw1 c hc)
  have hw2m : ∀ c ∈ w2, mildChar c := by
    intro c hc
    exact hws c (by rw [hdec]; exact List.mem_append.mpr (Or.inr hc))
      (hw2 c hc)
  have hmsub : ∀ c ∈ stripChars t, c ∈ t := by
    intro c hc
    rw [hdec]
    exact List.mem_append.mpr (Or.inl (List.mem_append.mpr (Or.inr hc)))
  have hmex : ∀ c ∈ stripChars t, isLineBreak c = true → c = '\n' :=
    fun c hc => ht c (hmsub c hc)
  -- the tokenization chain from the wrapped clean to filter over strip t
  have hchainA : tokenize (joinNl ((nlSplit t).filter fenceKeep)) =
      tokenize (joinNl ((nlSplit (stripChars t)).filter fenceKeep)) := by
    conv_lhs => rw [hdec, List.append_assoc]
    rw [tokJoin_prepend w1 (stripChars t ++ w2) hw1m,
      tokJoin_append w2 (stripChars t) hw2m]
  have hchainW : tokenize (fenceClean (wrapFence tagT tagB t)) =
      tokenize (joinNl ((nlSplit (stripChars t)).filter fenceKeep)) := by
    rw [hclean_w, wrapFence_strip tagT tagB t htT1 htB1,
      tokJoin_pySplit (wrapFence tagT tagB t) hwex, hfilter, hchainA]
  -- now case on whether the plain text is itself fenced
  unfold parseSelectionChars at hok ⊢
  unfold fenceClean at hok
  by_cases hfence : (['`', '`', '`'] : List Char).isPrefixOf (stripChars t) = true
  · rw [if_pos hfence] at hok
    have hchain2 : tokenize (fenceClean (wrapFence tagT tagB t)) =
        tokenize (joinNl ((pySplitlines (stripChars t)).filter fenceKeep)) := by
      rw [hchainW, ← tokJoin_pySplit (stripChars t) hmex]
    rw [jsonLoads_congr _ _ hchain2]
    exact hok
  · rw [if_neg hfence] at hok
    rcases Option.bind_eq_some.mp hok with ⟨j, hj1, hj2⟩
    have htoks : ∃ toks, tokenize (stripChars t) = some toks := by
      unfold jsonLoads at hj1
      cases htk : tokenize (stripChars t) with
      | none => rw [htk] at hj1; cases hj1
      | some toks => exact ⟨toks, rfl⟩
    obtain ⟨toks, htoks⟩ := htoks
    have hgood : ∀ l ∈ nlSplit (stripChars t), fenceKeep l = true := by
      intro l hl
      exact fenceKeep_of_goodLine l
        (tokenize_lines_good (stripChars t).length (stripChars t) le_rfl toks
          htoks l hl)
    have hchain3 : tokenize (fenceClean (wrapFence tagT tagB t)) =
        tokenize (stripChars t) := by
      rw [hchainW, List.filter_eq_self.mpr hgood, joinNl_nlSplit]
    rw [jsonLoads_congr _ _ hchain3, hj1]
    exact hj2

theorem parse_selection_fence_wrap_witness :
    parseSelectionChars ("\x7b\"flight_id\": \"F1\", \"hotel_id\": \"H1\"\x7d".data) =
      some ⟨"F1", "H1"⟩ ∧
    parseSelectionChars (wrapFence ("json".data) []
      ("\x7b\"flight_id\": \"F1\", \"hotel_id\": \"H1\"\x7d".data)) =
      some ⟨"F1", "H1"⟩ :=
  ⟨by decide,
    parse_selection_fence_wrap
      ("\x7b\"flight_id\": \"F1\", \"hotel_id\": \"H1\"\x7d".data)
      ("json".data) [] ⟨"F1", "H1"⟩
      (by decide) (by decide) (by decide) (by decide)⟩

/-- C8 (counterexample): the unrestricted round-trip claim fails in two
ways. The raw text `lineSepText` reconciles to `Ok`, its flight id
containing a raw U+2028 LINE SEPARATOR — legal inside a JSON string;
wrapping it in one fence line at the top (with the tag `json`) and one at
the bottom yields exactly `wrapFence`, yet reconciling the wrapped text
fails: Python `splitlines` breaks the string at U+2028 and the `"\n".join`
rebuild plants a raw newline inside the JSON string, which strict
`json.loads` rejects. And `nbspText`, a valid selection JSON followed by
one NO-BREAK SPACE, reconciles to `Ok` unwrapped (`str.strip()` removes
Unicode whitespace) but fails wrapped: the fence filter keeps the inner
line with the NBSP intact and the JSON scanner, which skips only space,
tab, CR and LF, rejects the trailing NBSP as extra data. -/
theorem parse_selection_fence_wrap_cex :
    (parse_selection lineSepText = some ⟨"a\u2028b", "H1"⟩ ∧
     lineSepWrapped.data = wrapFence ("json".data) [] lineSepText.data ∧
     parse_selection lineSepWrapped = none) ∧
    (parse_selection nbspText = some ⟨"F1", "H1"⟩ ∧
     nbspWrapped.data = wrapFence ("json".data) [] nbspText.data ∧
     parse_selection nbspWrapped = none) :=
  ⟨⟨by decide, by decide, by decide⟩, ⟨by decide, by decide, by decide⟩⟩


end TripBot
